import Mathlib

/-!
Verification of the `read_many` packing/formatting core (`src/read-many.ts`).

JavaScript strings are modelled as lists of Unicode scalar values
(`JStr := List Char`); `Buffer.byteLength(text, "utf-8")` is the sum of the
UTF-8 sizes of the scalars, and `text.split("\n")` is `splitOnNl`.  The two
combined-output ceilings `DEFAULT_MAX_BYTES` / `DEFAULT_MAX_LINES` are
external configuration constants of the host package, so the whole
development is parameterised by a `Budget` record carrying them.
-/

namespace ReadMany

/-! ## Definitions (embedded from `src/read-many.ts`; the external
collaborators are modelled as noted on each definition) -/

/-- A JavaScript string: a finite sequence of Unicode scalar values. -/
abbrev JStr := List Char

/-- `Buffer.byteLength(text, "utf-8")`: total UTF-8 byte size. -/
def utf8Len (s : JStr) : Nat := (s.map Char.utf8Size).sum

/-- `text.split("\n")` from JavaScript: the newline-separated segments
(`splitOnNl [] = [[]]`, a trailing newline yields a final empty segment). -/
def splitOnNl : JStr → List JStr
  | [] => [[]]
  | c :: rest =>
    if c = '\n' then [] :: splitOnNl rest
    else
      match splitOnNl rest with
      | [] => [[c]]
      | l :: ls => (c :: l) :: ls

/-- Join segments back with newlines (inverse of `splitOnNl`). -/
def joinNl (ls : List JStr) : JStr := List.intercalate ['\n'] ls

/-- `interface TextMetrics` from the source. -/
structure TextMetrics where
  bytes : Nat
  lines : Nat
deriving DecidableEq

/-- `measureText` from the source: UTF-8 byte length and count of
newline-separated segments. -/
def measureText (text : JStr) : TextMetrics :=
  { bytes := utf8Len text, lines := (splitOnNl text).length }

/-- Little-endian base-`b` digits of `n` (`fuel ≥ n` suffices). -/
def toDigitsRev (b : Nat) : Nat → Nat → List Nat
  | _, 0 => []
  | 0, _ + 1 => []
  | fuel + 1, n + 1 => ((n + 1) % b) :: toDigitsRev b fuel ((n + 1) / b)

/-- The digit characters JavaScript uses for `Number.prototype.toString`
(lowercase letters past 9). -/
def jsDigitChar (d : Nat) : Char :=
  if d < 10 then Char.ofNat (48 + d) else Char.ofNat (97 + (d - 10))

/-- `n.toString(b)` for a nonnegative integer `n`. -/
def natToBase (b n : Nat) : JStr :=
  if n = 0 then ['0'] else ((toDigitsRev b n n).reverse.map jsDigitChar)

/-- `${n}`: decimal rendering. -/
def natDecimal (n : Nat) : JStr := natToBase 10 n

/-- `String.prototype.toUpperCase` restricted to ASCII (all strings it is
applied to in the source are ASCII alphanumerics). -/
def jsToUpper (c : Char) : Char :=
  if 'a' ≤ c ∧ c ≤ 'z' then Char.ofNat (c.toNat - 32) else c

def strToUpper (s : JStr) : JStr := s.map jsToUpper

/-- `s.padStart(n, c)`. -/
def padStart (s : JStr) (n : Nat) (c : Char) : JStr :=
  List.replicate (n - s.length) c ++ s

/-- `(h << 5)` of the source, i.e. the JavaScript 32-bit *signed* left-shift
applied to the running (unsigned) hash value. -/
def jsShl5Int32 (h : Nat) : Int :=
  let u : Nat := (h * 32) % 2 ^ 32
  if u < 2 ^ 31 then (u : Int) else (u : Int) - 2 ^ 32

/-- One step `((hash << 5) + hash + charCode) >>> 0` of the source's loop. -/
def jsHashStep (h c : Nat) : Nat :=
  ((jsShl5Int32 h + (h : Int) + (c : Int)) % ((2 : Int) ^ 32)).toNat

/-- `createPathHash` from the source: DJB2-style rolling hash over the
path's code units, rendered as hex, upper-cased, left-padded with zeros to
6 characters and cut to its first 6 characters. -/
def createPathHash (path : JStr) : JStr :=
  let hash := path.foldl (fun h c => jsHashStep h c.toNat) 5381
  (padStart (strToUpper (natToBase 16 hash)) 6 '0').take 6

/-- The hash as the spec's sentence describes it: seed 5381, step
`hash = hash*33 + charCode` modulo `2^32`, rendered in uppercase
hexadecimal, zero-padded on the left to 6 characters, truncated to its
first 6 characters.  (Stated from the spec's words, to be compared with
`createPathHash` above.) -/
def specPathHash (path : JStr) : JStr :=
  let hash := path.foldl (fun h c => (h * 33 + c.toNat) % 2 ^ 32) 5381
  (padStart (strToUpper (natToBase 16 hash)) 6 '0').take 6

/-- The 26-word dictionary from the source. -/
def DELIMITER_WORDS : List JStr :=
  [ ['P','I','N','E'], ['M','A','N','G','O'], ['O','R','B','I','T'],
    ['R','A','V','E','N'], ['C','E','D','A','R'], ['L','O','T','U','S'],
    ['E','M','B','E','R'], ['N','O','V','A'], ['D','U','N','E'],
    ['K','I','T','E'], ['T','I','D','A','L'], ['Q','U','A','R','T','Z'],
    ['A','C','O','R','N'], ['B','L','A','Z','E'], ['F','J','O','R','D'],
    ['G','L','Y','P','H'], ['H','A','R','B','O','R'], ['I','V','O','R','Y'],
    ['J','U','N','I','P','E','R'], ['S','I','E','R','R','A'],
    ['U','M','B','R','A'], ['V','I','O','L','E','T'],
    ['W','I','L','L','O','W'], ['X','E','N','O','N'],
    ['Y','A','R','R','O','W'], ['Z','E','P','H','Y','R'] ]

/-- `DELIMITER_WORDS[index - 1] ?? FILE<index>` (in JavaScript, `index = 0`
indexes at `-1`, which is `undefined` and falls back to `FILE0`). -/
def delimiterWord (index : Nat) : JStr :=
  if index = 0 then ['F','I','L','E'] ++ natDecimal index
  else ((DELIMITER_WORDS.get? (index - 1)).getD (['F','I','L','E'] ++ natDecimal index))

/-- `line.replace(/\r$/, "")`: strip one trailing carriage return. -/
def stripCR (l : JStr) : JStr :=
  if l.getLast? = some '\r' then l.dropLast else l

/-- `buildLineSet` from the source.  The JavaScript `Set` is modelled as a
list; only membership and (an upper bound on) its size are ever used. -/
def buildLineSet (content : JStr) : List JStr :=
  (splitOnNl content).map stripCR

/-- The probe loop `for (let attempt = 1; attempt <= 256; attempt++)`. -/
def probeAttempts (lineSet : List JStr) (base : JStr) : Nat → Nat → Option JStr
  | 0, _ => none
  | fuel + 1, k =>
    let candidate := base ++ '_' :: natDecimal k
    if candidate ∈ lineSet then probeAttempts lineSet base fuel (k + 1)
    else some candidate

/-- The final `while (true)` suffix loop of the source, made structurally
recursive on a fuel argument; `lineSet.length + 1` fuel always suffices to
reach the first free suffix (proved below), so with that fuel this computes
exactly what the unbounded loop computes. -/
def probeUnbounded (lineSet : List JStr) (fallbackBase : JStr) : Nat → Nat → JStr
  | 0, k => fallbackBase ++ '_' :: natDecimal k
  | fuel + 1, k =>
    let candidate := fallbackBase ++ '_' :: natDecimal k
    if candidate ∈ lineSet then probeUnbounded lineSet fallbackBase fuel (k + 1)
    else candidate

/-- `pickDelimiter` from the source. -/
def pickDelimiter (path : JStr) (index : Nat) (content : JStr) : JStr :=
  let lineSet := buildLineSet content
  let word := delimiterWord index
  let hash := createPathHash path
  let base := word ++ '_' :: natDecimal index ++ '_' :: hash
  if base ∈ lineSet then
    match probeAttempts lineSet base 256 1 with
    | some candidate => candidate
    | none =>
      let fallbackBase := base ++ '_' :: strToUpper (natToBase 36 content.length)
      if fallbackBase ∈ lineSet then
        probeUnbounded lineSet fallbackBase (lineSet.length + 1) 1
      else fallbackBase
  else base

/-- `formatContentBlock` from the source:
`@<path>\n<<'<delimiter>'\n<body>\n<delimiter>`. -/
def formatContentBlock (path : JStr) (body : JStr) (index : Nat) : JStr :=
  let delimiter := pickDelimiter path index body
  '@' :: path ++ '\n' :: '<' :: '<' :: '\'' :: delimiter ++ '\'' :: '\n' :: body
    ++ '\n' :: delimiter

/-- Shorthand for embedding ASCII literals. -/
def js (s : String) : JStr := s.data

/-- The combined output ceilings `DEFAULT_MAX_BYTES` / `DEFAULT_MAX_LINES`:
external configuration constants of the host package, carried as
parameters. -/
structure Budget where
  maxBytes : Nat
  maxLines : Nat
deriving DecidableEq

/-- The relevant fields of the host package's `TruncationResult`. -/
structure TruncationResult where
  content : JStr
  truncated : Bool
deriving DecidableEq

/-- Greedy head-keeping prefix of a line list under line/byte caps. -/
def takeHeadFit : List JStr → Nat → Nat → List JStr
  | [], _, _ => []
  | l :: ls, maxLines, maxBytes =>
    if maxLines = 0 ∨ maxBytes < utf8Len l then []
    else l :: takeHeadFit ls (maxLines - 1) (maxBytes - utf8Len l - 1)

/-- Modelled from the spec: `truncateHead` of `@mariozechner/pi-coding-agent`
(an external collaborator, not part of this repository's sources).  Per the
spec it truncates "from the tail, keep the head" to the given line/byte
budget and reports whether it altered the text; on text already within
budget it is the identity with `truncated = false`. -/
def truncateHead (text : JStr) (maxLines maxBytes : Nat) : TruncationResult :=
  if (splitOnNl text).length ≤ maxLines ∧ utf8Len text ≤ maxBytes then ⟨text, false⟩
  else ⟨joinNl (takeHeadFit (splitOnNl text) maxLines maxBytes), true⟩

/-- `interface FileCandidate` from the source. -/
structure FileCandidate where
  index : Nat
  path : JStr
  ok : Bool
  fullText : JStr
  fullMetrics : TextMetrics
  body : Option JStr
deriving DecidableEq

/-- Out-of-range array access placeholder (`buildPlan` is only ever handed
in-range indexes). -/
def defaultCandidate : FileCandidate := ⟨0, [], false, [], ⟨0, 0⟩, none⟩

/-- `interface PackedSection` from the source. -/
structure PackedSection where
  index : Nat
  text : JStr
  metrics : TextMetrics
deriving DecidableEq

inductive PackingStrategy
  | requestOrder
  | smallestFirst
deriving DecidableEq

/-- `interface PackingPlan` from the source (`fullIncluded` is the JS `Set`
as the list of additions; the orchestrator only passes duplicate-free
orders, under which its length is the set's size). -/
structure PackingPlan where
  strategy : PackingStrategy
  fullIncluded : List Nat
  partialSection : Option PackedSection
  omittedIndexes : List Nat
  usedBytes : Nat
  usedLines : Nat
  sectionCount : Nat
  fullCount : Nat
  fullSuccessCount : Nat
deriving DecidableEq

/-- The mutable `state` record threaded through `buildPlan`. -/
structure PackState where
  usedBytes : Nat
  usedLines : Nat
  sectionCount : Nat
deriving DecidableEq

def sepBytes (st : PackState) : Nat := if st.sectionCount > 0 then 2 else 0

def sepLines (st : PackState) : Nat := if st.sectionCount > 0 then 1 else 0

/-- `canFitSection` from the source. -/
def canFitSection (B : Budget) (st : PackState) (m : TextMetrics) : Bool :=
  decide (st.usedBytes + sepBytes st + m.bytes ≤ B.maxBytes) &&
  decide (st.usedLines + sepLines st + m.lines ≤ B.maxLines)

/-- `addSection` from the source. -/
def addSection (st : PackState) (m : TextMetrics) : PackState :=
  { usedBytes := st.usedBytes + sepBytes st + m.bytes
    usedLines := st.usedLines + sepLines st + m.lines
    sectionCount := st.sectionCount + 1 }

/-- The shrink-to-fit loop of `buildPartialSection` (16 attempts; the two
cap variables are the explicit accumulator arguments). -/
def partialLoop (path body : JStr) (index : Nat) (remainingLines remainingBytes : Nat) :
    Nat → Nat → Nat → Option JStr
  | 0, _, _ => none
  | fuel + 1, maxBodyLines, maxBodyBytes =>
    let trunc := truncateHead body maxBodyLines maxBodyBytes
    if trunc.content = [] then none
    else
      let partialText := formatContentBlock path trunc.content (index + 1)
      let metrics := measureText partialText
      if metrics.lines ≤ remainingLines ∧ metrics.bytes ≤ remainingBytes then some partialText
      else
        let mbl := if remainingLines < metrics.lines ∧ 1 < maxBodyLines
          then max 1 (maxBodyLines - (metrics.lines - remainingLines)) else maxBodyLines
        let mbb := if remainingBytes < metrics.bytes ∧ 1 < maxBodyBytes
          then max 1 (maxBodyBytes - (metrics.bytes - remainingBytes) - 8) else maxBodyBytes
        partialLoop path body index remainingLines remainingBytes fuel mbl mbb

/-- `buildPartialSection` from the source. -/
def buildPartialSection (candidate : FileCandidate) (remainingLines remainingBytes : Nat) :
    Option JStr :=
  match candidate.body with
  | none => none
  | some body =>
    if remainingLines - 3 < 1 ∨ remainingBytes < 32 then none
    else
      partialLoop candidate.path body candidate.index remainingLines remainingBytes
        16 (remainingLines - 3) (max 1 (remainingBytes - 96))

/-- The full-block pass of `buildPlan`: returns the final state, the list of
fully included indexes (in inclusion order) and the successful-full count.
`request-order` stops at the first non-fitting candidate; `smallest-first`
skips it. -/
def fullPass (B : Budget) (strategy : PackingStrategy) (candidates : List FileCandidate) :
    PackState → List Nat → PackState × List Nat × Nat
  | st, [] => (st, [], 0)
  | st, i :: rest =>
    let c := candidates.getD i defaultCandidate
    if canFitSection B st c.fullMetrics then
      let r := fullPass B strategy candidates (addSection st c.fullMetrics) rest
      (r.1, i :: r.2.1, (if c.ok then 1 else 0) + r.2.2)
    else
      match strategy with
      | .requestOrder => (st, [], 0)
      | .smallestFirst => fullPass B strategy candidates st rest

/-- The partial pass of `buildPlan`: scan candidates in original index
order, skip the fully included, stop if no budget remains, accept the first
successful partial.  The state is unchanged throughout the scan. -/
def partialScan (B : Budget) (fullIncluded : List Nat) (st : PackState) :
    List (Nat × FileCandidate) → Option PackedSection
  | [] => none
  | (i, c) :: rest =>
    if i ∈ fullIncluded then partialScan B fullIncluded st rest
    else
      let remBytes := B.maxBytes - st.usedBytes - sepBytes st
      let remLines := B.maxLines - st.usedLines - sepLines st
      if remBytes = 0 ∨ remLines = 0 then none
      else
        match buildPartialSection c remLines remBytes with
        | none => partialScan B fullIncluded st rest
        | some t => some ⟨i, t, measureText t⟩

/-- `buildPlan` from the source. -/
def buildPlan (B : Budget) (strategy : PackingStrategy) (order : List Nat)
    (candidates : List FileCandidate) : PackingPlan :=
  let r := fullPass B strategy candidates ⟨0, 0, 0⟩ order
  let st := r.1
  let inc := r.2.1
  let part := partialScan B inc st candidates.enum
  let st2 := match part with
    | none => st
    | some ps => addSection st ps.metrics
  { strategy := strategy
    fullIncluded := inc
    partialSection := part
    omittedIndexes := (List.range candidates.length).filter
      (fun i => decide (i ∉ inc) && part.all (fun ps => decide (ps.index ≠ i)))
    usedBytes := st2.usedBytes
    usedLines := st2.usedLines
    sectionCount := st2.sectionCount
    fullCount := inc.length
    fullSuccessCount := r.2.2 }

/-- One content fragment returned by the external read primitive. -/
inductive ReadFragment
  | text (s : JStr)
  | image
deriving DecidableEq

/-- The outcome of one external read: its content fragments, or the thrown
error's message. -/
inductive ReadOutcome
  | success (content : List ReadFragment)
  | failure (message : JStr)
deriving DecidableEq

/-- A requested file together with its read outcome. -/
structure FileRequest where
  path : JStr
  outcome : ReadOutcome
deriving DecidableEq

/-- The text-typed fragments, in order. -/
def textChunks : List ReadFragment → List JStr
  | [] => []
  | .text s :: rest => s :: textChunks rest
  | .image :: rest => textChunks rest

/-- The number of image-typed fragments. -/
def imageCount : List ReadFragment → Nat
  | [] => 0
  | .image :: rest => imageCount rest + 1
  | .text _ :: rest => imageCount rest

/-- `[<n> image attachment(s) omitted; use read on this file for image payload.]` -/
def imageNote (n : Nat) : JStr :=
  js "[" ++ natDecimal n ++ js " image attachment(s) omitted; use read on this file for image payload.]"

/-- Lines 354-362 of the source: the body of a successful read. -/
def successBody (content : List ReadFragment) : JStr :=
  let body := joinNl (textChunks content)
  let n := imageCount content
  if body = [] then
    if n > 0 then imageNote n else js "[No text content returned]"
  else
    if n > 0 then body ++ '\n' :: imageNote n else body

/-- `[Error: <message>]` -/
def errorBody (message : JStr) : JStr := js "[Error: " ++ message ++ js "]"

/-- The fields of `ReadManyFileDetail` the claims need. -/
structure FileDetail where
  path : JStr
  ok : Bool
deriving DecidableEq

/-- Build the candidate and detail record for the file at 0-based index
`i` (the 1-based position `i + 1` names the block). -/
def processFile (path : JStr) (i : Nat) (o : ReadOutcome) : FileCandidate × FileDetail :=
  match o with
  | .success content =>
    let body := successBody content
    let fullText := formatContentBlock path body (i + 1)
    (⟨i, path, true, fullText, measureText fullText, some body⟩, ⟨path, true⟩)
  | .failure msg =>
    let body := errorBody msg
    let fullText := formatContentBlock path body (i + 1)
    (⟨i, path, false, fullText, measureText fullText, none⟩, ⟨path, false⟩)

/-- The sequential read loop (lines 333-401): on a failure with
`stopOnError` set, the loop halts right after recording the failure. -/
def readLoop (stopOnError : Bool) : Nat → List FileRequest → List FileCandidate × List FileDetail
  | _, [] => ([], [])
  | i, f :: rest =>
    let c := processFile f.path i f.outcome
    match f.outcome with
    | .success _ =>
      let r := readLoop stopOnError (i + 1) rest
      (c.1 :: r.1, c.2 :: r.2)
    | .failure _ =>
      if stopOnError then ([c.1], [c.2])
      else
        let r := readLoop stopOnError (i + 1) rest
        (c.1 :: r.1, c.2 :: r.2)

/-- The sort comparator of `smallestFirstOrder` as a boolean total order:
bytes ascending, then lines ascending, then original index. -/
def sizeLE (cands : List FileCandidate) (a b : Nat) : Bool :=
  let ma := (cands.getD a defaultCandidate).fullMetrics
  let mb := (cands.getD b defaultCandidate).fullMetrics
  decide (ma.bytes < mb.bytes) ||
    (decide (ma.bytes = mb.bytes) &&
      (decide (ma.lines < mb.lines) ||
        (decide (ma.lines = mb.lines) && decide (a ≤ b))))

/-- `[...requestOrder].sort(comparator)`: the comparator is a total order
that never ties distinct indexes, so the result of JavaScript's sort is the
unique sorted permutation of the index list, here computed by insertion
sort (structurally recursive, hence kernel-evaluable). -/
def smallestFirstOrder (cands : List FileCandidate) : List Nat :=
  List.insertionSort (fun a b => sizeLE cands a b = true) (List.range cands.length)

/-- Lines 421-428: each candidate in original index order contributes its
full text if fully included, else its partial text if it is the designated
partial index, else nothing. -/
def sectionTextAt (plan : PackingPlan) (i : Nat) (c : FileCandidate) : Option JStr :=
  if i ∈ plan.fullIncluded then some c.fullText
  else
    match plan.partialSection with
    | some ps => if ps.index = i then some ps.text else none
    | none => none

/-- The `sections` accumulation loop, over index-candidate pairs. -/
def sectionsFrom (plan : PackingPlan) : List (Nat × FileCandidate) → List JStr
  | [] => []
  | (i, c) :: rest =>
    match sectionTextAt plan i c with
    | some t => t :: sectionsFrom plan rest
    | none => sectionsFrom plan rest

def planSections (candidates : List FileCandidate) (plan : PackingPlan) : List JStr :=
  sectionsFrom plan candidates.enum

/-- `sections.join("\n\n")`. -/
def joinSections : List JStr → JStr
  | [] => []
  | [s] => s
  | s :: rest => s ++ '\n' :: '\n' :: joinSections rest

/-- Everything `execute` produces or computes along the way; intermediate
values (both plans, the pre-truncation text) are exposed as fields so the
properties below can speak about them. -/
structure ExecResult where
  outputText : JStr
  plannedOutputText : JStr
  combinedTruncation : Option TruncationResult
  processedCount : Nat
  successCount : Nat
  errorCount : Nat
  fileDetails : List FileDetail
  candidates : List FileCandidate
  strategy : PackingStrategy
  switchedForCoverage : Bool
  chosenPlan : PackingPlan
  requestPlan : PackingPlan
  smallestPlan : PackingPlan
deriving DecidableEq

/-- The pure content of `createReadManyTool.execute`, parameterised by the
budget constants and the external reads' outcomes. -/
def execute (B : Budget) (stopOnError : Bool) (files : List FileRequest) : ExecResult :=
  let r := readLoop stopOnError 0 files
  let candidates := r.1
  let fileDetails := r.2
  let requestPlan := buildPlan B .requestOrder (List.range candidates.length) candidates
  let smallestPlan := buildPlan B .smallestFirst (smallestFirstOrder candidates) candidates
  let switched := decide (requestPlan.fullSuccessCount < smallestPlan.fullSuccessCount)
  let plan := if switched then smallestPlan else requestPlan
  let plannedOutputText := joinSections (planSections candidates plan)
  let outputTruncation := truncateHead plannedOutputText B.maxLines B.maxBytes
  { outputText := outputTruncation.content
    plannedOutputText := plannedOutputText
    combinedTruncation := if outputTruncation.truncated then some outputTruncation else none
    processedCount := fileDetails.length
    successCount := (fileDetails.filter (fun f => f.ok)).length
    errorCount := (fileDetails.filter (fun f => !f.ok)).length
    fileDetails := fileDetails
    candidates := candidates
    strategy := plan.strategy
    switchedForCoverage := switched
    chosenPlan := plan
    requestPlan := requestPlan
    smallestPlan := smallestPlan }

/-- Little-endian digit value, for proving `toDigitsRev` round-trips. -/
def ofDigitsLE (b : Nat) : List Nat → Nat
  | [] => 0
  | d :: ds => d + b * ofDigitsLE b ds

/-- Inverse of `jsDigitChar` on the digit characters. -/
def jsDigitInv (c : Char) : Nat :=
  if c.toNat ≤ 57 then c.toNat - 48 else c.toNat - 87

/-- String free of newline and carriage-return characters. -/
def goodStr (s : JStr) : Prop := ∀ c ∈ s, c ≠ '\n' ∧ c ≠ '\r'

instance (s : JStr) : Decidable (goodStr s) := by
  unfold goodStr
  infer_instance

/-- Split a framed block at its header line (line 0), opening marker line
(line 1) and closing delimiter line (the last line); the body is everything
strictly in between, rejoined. -/
def parseBlock (block : JStr) : Option JStr :=
  match splitOnNl block with
  | _ :: _ :: rest =>
    match rest with
    | [] => none
    | _ :: _ => some (joinNl rest.dropLast)
  | _ => none

/-- The partial-section text recorded in a plan, if any (`[]` otherwise). -/
def partialTextOf (plan : PackingPlan) : JStr :=
  (plan.partialSection.map PackedSection.text).getD []

/-- Witness inputs for the partial-section claim: a candidate whose full
block cannot fit but whose body supports a partial section. -/
def c5cand : FileCandidate :=
  ⟨0, js "/a", true, js "BIG", ⟨1000, 1⟩,
   some (js "line0\nline1\nline2\nline3\nline4\nline5\nline6\nline7")⟩

/-! ## Properties -/

theorem splitOnNl_ne_nil (s : JStr) : splitOnNl s ≠ [] := by
  induction s with
  | nil => simp [splitOnNl]
  | cons c rest ih =>
    simp only [splitOnNl]
    split
    · simp
    · cases h : splitOnNl rest <;> simp

theorem length_splitOnNl (s : JStr) : (splitOnNl s).length = s.count '\n' + 1 := by
  induction s with
  | nil => rfl
  | cons c rest ih =>
    simp only [splitOnNl]
    split
    · rename_i h
      subst h
      simp [List.count_cons, ih]
    · rename_i h
      cases hs : splitOnNl rest with
      | nil => exact absurd hs (splitOnNl_ne_nil rest)
      | cons l ls =>
        simp only [List.length_cons, List.count_cons]
        rw [hs] at ih
        simp only [List.length_cons] at ih
        simp [ih, h]

theorem utf8Len_append (a b : JStr) : utf8Len (a ++ b) = utf8Len a + utf8Len b := by
  simp [utf8Len]

theorem joinNl_splitOnNl (s : JStr) : joinNl (splitOnNl s) = s := by
  induction s with
  | nil => rfl
  | cons c rest ih =>
    simp only [splitOnNl]
    split
    · rename_i h
      subst h
      simp only [joinNl, List.intercalate] at ih ⊢
      cases hs : splitOnNl rest with
      | nil => exact absurd hs (splitOnNl_ne_nil rest)
      | cons l ls =>
        rw [hs] at ih
        simp only [List.intersperse] at ih ⊢
        cases ls <;> simp_all [List.intersperse]
    · cases hs : splitOnNl rest with
      | nil => exact absurd hs (splitOnNl_ne_nil rest)
      | cons l ls =>
        rw [hs] at ih
        simp only [joinNl, List.intercalate] at ih ⊢
        cases ls <;> simp_all [List.intersperse]

theorem splitOnNl_of_no_nl {a : JStr} (h : '\n' ∉ a) : splitOnNl a = [a] := by
  induction a with
  | nil => rfl
  | cons c rest ih =>
    simp only [List.mem_cons, not_or] at h
    simp only [splitOnNl]
    rw [if_neg (fun hc => h.1 hc.symm), ih h.2]

theorem splitOnNl_append_nl {a : JStr} (b : JStr) (h : '\n' ∉ a) :
    splitOnNl (a ++ '\n' :: b) = a :: splitOnNl b := by
  induction a with
  | nil => simp [splitOnNl]
  | cons c rest ih =>
    simp only [List.mem_cons, not_or] at h
    simp only [List.cons_append, splitOnNl]
    rw [if_neg (fun hc => h.1 hc.symm)]
    have := ih h.2
    rw [← List.append_eq] at this
    rw [this]

theorem jsHashStep_eq (h c : Nat) : jsHashStep h c = (h * 33 + c) % 2 ^ 32 := by
  unfold jsHashStep jsShl5Int32
  simp only []
  split <;> omega

theorem createPathHash_eq_spec (path : JStr) : createPathHash path = specPathHash path := by
  unfold createPathHash specPathHash
  have : (fun h c => jsHashStep h (Char.toNat c)) =
      (fun h c => (h * 33 + Char.toNat c) % 2 ^ 32) := by
    funext h c
    exact jsHashStep_eq h c.toNat
  rw [this]

theorem ofDigitsLE_toDigitsRev (b : Nat) (hb : 2 ≤ b) :
    ∀ fuel n, n ≤ fuel → ofDigitsLE b (toDigitsRev b fuel n) = n := by
  intro fuel
  induction fuel with
  | zero =>
    intro n hn
    interval_cases n
    rfl
  | succ f ih =>
    intro n hn
    match n with
    | 0 => rfl
    | n + 1 =>
      show ofDigitsLE b (((n + 1) % b) :: toDigitsRev b f ((n + 1) / b)) = n + 1
      have hdiv : (n + 1) / b ≤ f := by
        have h2 : (n + 1) / b < n + 1 := Nat.div_lt_self (by omega) (by omega)
        omega
      show (n + 1) % b + b * ofDigitsLE b (toDigitsRev b f ((n + 1) / b)) = n + 1
      rw [ih _ hdiv]
      exact Nat.mod_add_div (n + 1) b

theorem toDigitsRev_lt (b : Nat) (hb : 0 < b) :
    ∀ fuel n, ∀ d ∈ toDigitsRev b fuel n, d < b := by
  intro fuel
  induction fuel with
  | zero =>
    intro n d hd
    match n with
    | 0 => simp [toDigitsRev] at hd
    | _ + 1 => simp [toDigitsRev] at hd
  | succ f ih =>
    intro n d hd
    match n with
    | 0 => simp [toDigitsRev] at hd
    | n + 1 =>
      simp only [toDigitsRev, List.mem_cons] at hd
      rcases hd with h | h
      · exact h ▸ Nat.mod_lt _ hb
      · exact ih _ d h

theorem jsDigitInv_jsDigitChar : ∀ d < 36, jsDigitInv (jsDigitChar d) = d := by
  decide

/-- Parsing back a rendered numeral recovers the number. -/
theorem parse_natToBase (b n : Nat) (hb : 2 ≤ b) (hb36 : b ≤ 36) :
    ofDigitsLE b (((natToBase b n).reverse).map jsDigitInv) = n := by
  unfold natToBase
  split
  · rename_i h0
    subst h0
    simp [ofDigitsLE, jsDigitInv]
  · rename_i h0
    have hrev : ((toDigitsRev b n n).reverse.map jsDigitChar).reverse
        = (toDigitsRev b n n).map jsDigitChar := by
      rw [← List.map_reverse, List.reverse_reverse]
    rw [hrev, List.map_map]
    have hdig : ∀ d ∈ toDigitsRev b n n, (jsDigitInv ∘ jsDigitChar) d = d := by
      intro d hd
      exact jsDigitInv_jsDigitChar d
        (lt_of_lt_of_le (toDigitsRev_lt b (by omega) n n d hd) hb36)
    rw [List.map_congr_left hdig]
    simp only [List.map_id']
    exact ofDigitsLE_toDigitsRev b hb n n le_rfl

theorem natDecimal_inj : Function.Injective natDecimal := by
  intro m n h
  have hm := parse_natToBase 10 m (by omega) (by omega)
  have hn := parse_natToBase 10 n (by omega) (by omega)
  unfold natDecimal at h
  rw [h] at hm
  exact hm.symm.trans hn

/-- The suffixed candidates are pairwise distinct. -/
theorem suffix_candidate_inj (base : JStr) :
    Function.Injective (fun k => base ++ '_' :: natDecimal k) := by
  intro k₁ k₂ h
  simp only [List.append_cancel_left_eq, List.cons.injEq, true_and] at h
  exact natDecimal_inj h

/-- Pigeonhole: among any `S.length + 1` consecutive suffixes, at least one
candidate is not a member of `S`. -/
theorem exists_free_suffix (S : List JStr) (base : JStr) (k₀ : Nat) :
    ∃ i < S.length + 1, base ++ '_' :: natDecimal (k₀ + i) ∉ S := by
  by_contra hall
  push_neg at hall
  have hsub : ((List.range (S.length + 1)).map
      (fun i => base ++ '_' :: natDecimal (k₀ + i))) ⊆ S := by
    intro x hx
    simp only [List.mem_map, List.mem_range] at hx
    obtain ⟨i, hi, rfl⟩ := hx
    exact hall i hi
  have hnodup : ((List.range (S.length + 1)).map
      (fun i => base ++ '_' :: natDecimal (k₀ + i))).Nodup := by
    refine List.Nodup.map ?_ (List.nodup_range _)
    intro i₁ i₂ h
    have := suffix_candidate_inj base h
    omega
  have := (hnodup.subperm hsub).length_le
  simp at this

/-- With enough fuel to reach a free suffix, the fuelled probe loop returns
a candidate outside `S` (so the source's unbounded loop terminates with a
free token). -/
theorem probeUnbounded_not_mem (S : List JStr) (base : JStr) :
    ∀ fuel k, (∃ i < fuel, base ++ '_' :: natDecimal (k + i) ∉ S) →
      probeUnbounded S base fuel k ∉ S := by
  intro fuel
  induction fuel with
  | zero =>
    intro k h
    obtain ⟨i, hi, _⟩ := h
    omega
  | succ f ih =>
    intro k h
    show (if base ++ '_' :: natDecimal k ∈ S then probeUnbounded S base f (k + 1)
      else base ++ '_' :: natDecimal k) ∉ S
    split
    · rename_i hmem
      apply ih (k + 1)
      obtain ⟨i, hi, hfree⟩ := h
      match i with
      | 0 => exact absurd hmem (by simpa using hfree)
      | i + 1 =>
        refine ⟨i, by omega, ?_⟩
        have : k + 1 + i = k + (i + 1) := by omega
        rw [this]
        exact hfree
    · rename_i hmem
      exact hmem

theorem probeAttempts_not_mem (S : List JStr) (base : JStr) :
    ∀ fuel k c, probeAttempts S base fuel k = some c → c ∉ S := by
  intro fuel
  induction fuel with
  | zero => intro k c h; simp [probeAttempts] at h
  | succ f ih =>
    intro k c h
    simp only [probeAttempts] at h
    split at h
    · exact ih (k + 1) c h
    · rename_i hmem
      cases h
      exact hmem

/-- The chosen delimiter is never a member of the line set. -/
theorem pickDelimiter_not_mem_lineSet (path : JStr) (index : Nat) (content : JStr) :
    pickDelimiter path index content ∉ buildLineSet content := by
  simp only [pickDelimiter]
  split
  · rename_i hbase
    split
    · rename_i c hc
      exact probeAttempts_not_mem _ _ 256 1 c hc
    · split
      · rename_i hfb
        apply probeUnbounded_not_mem
        obtain ⟨i, hi, hfree⟩ := exists_free_suffix (buildLineSet content)
          (delimiterWord index ++ '_' :: natDecimal index ++ '_' :: createPathHash path
            ++ '_' :: strToUpper (natToBase 36 content.length)) 1
        exact ⟨i, hi, hfree⟩
      · rename_i hfb
        exact hfb
  · rename_i hbase
    exact hbase

theorem goodStr_append {a b : JStr} (ha : goodStr a) (hb : goodStr b) : goodStr (a ++ b) := by
  intro c hc
  rcases List.mem_append.mp hc with h | h
  · exact ha c h
  · exact hb c h

theorem goodStr_cons {c : Char} {s : JStr} (hc : c ≠ '\n' ∧ c ≠ '\r') (hs : goodStr s) :
    goodStr (c :: s) := by
  intro x hx
  rcases List.mem_cons.mp hx with h | h
  · exact h ▸ hc
  · exact hs x h

theorem goodStr_words : ∀ w ∈ DELIMITER_WORDS, goodStr w := by decide

theorem goodStr_digitChars : ∀ d < 36, (jsDigitChar d ≠ '\n' ∧ jsDigitChar d ≠ '\r') ∧
    (jsToUpper (jsDigitChar d) ≠ '\n' ∧ jsToUpper (jsDigitChar d) ≠ '\r') := by
  decide

theorem goodStr_natToBase {b : Nat} (hb : 2 ≤ b) (hb36 : b ≤ 36) (n : Nat) :
    goodStr (natToBase b n) := by
  unfold natToBase
  split
  · decide
  · intro c hc
    simp only [List.mem_map, List.mem_reverse] at hc
    obtain ⟨d, hd, rfl⟩ := hc
    have := toDigitsRev_lt b (by omega) n n d hd
    exact (goodStr_digitChars d (by omega)).1

theorem goodStr_strToUpper_natToBase {b : Nat} (hb : 2 ≤ b) (hb36 : b ≤ 36) (n : Nat) :
    goodStr (strToUpper (natToBase b n)) := by
  unfold strToUpper natToBase
  split
  · decide
  · intro c hc
    simp only [List.map_map, List.mem_map, List.mem_reverse] at hc
    obtain ⟨d, hd, rfl⟩ := hc
    have := toDigitsRev_lt b (by omega) n n d hd
    exact (goodStr_digitChars d (by omega)).2

theorem goodStr_natDecimal (n : Nat) : goodStr (natDecimal n) :=
  goodStr_natToBase (by omega) (by omega) n

theorem goodStr_createPathHash (path : JStr) : goodStr (createPathHash path) := by
  unfold createPathHash padStart
  intro c hc
  have hc' := List.mem_of_mem_take hc
  rcases List.mem_append.mp hc' with h | h
  · have := List.eq_of_mem_replicate h
    subst this
    decide
  · exact goodStr_strToUpper_natToBase (by omega) (by omega) _ c h

theorem goodStr_delimiterWord (index : Nat) : goodStr (delimiterWord index) := by
  unfold delimiterWord
  split
  · exact goodStr_append (by decide) (goodStr_natDecimal index)
  · cases hg : DELIMITER_WORDS.get? (index - 1) with
    | none =>
      simp only [hg, Option.getD_none]
      exact goodStr_append (by decide) (goodStr_natDecimal index)
    | some w =>
      simp only [hg, Option.getD_some]
      exact goodStr_words w (List.get?_mem hg)

theorem goodStr_probeAttempts {S : List JStr} {base : JStr} (hb : goodStr base) :
    ∀ fuel k c, probeAttempts S base fuel k = some c → goodStr c := by
  intro fuel
  induction fuel with
  | zero => intro k c h; simp [probeAttempts] at h
  | succ f ih =>
    intro k c h
    simp only [probeAttempts] at h
    split at h
    · exact ih (k + 1) c h
    · cases h
      exact goodStr_append hb (goodStr_cons (by decide) (goodStr_natDecimal k))

theorem goodStr_probeUnbounded {S : List JStr} {base : JStr} (hb : goodStr base) :
    ∀ fuel k, goodStr (probeUnbounded S base fuel k) := by
  intro fuel
  induction fuel with
  | zero =>
    intro k
    exact goodStr_append hb (goodStr_cons (by decide) (goodStr_natDecimal k))
  | succ f ih =>
    intro k
    show goodStr (if base ++ '_' :: natDecimal k ∈ S then probeUnbounded S base f (k + 1)
      else base ++ '_' :: natDecimal k)
    split
    · exact ih (k + 1)
    · exact goodStr_append hb (goodStr_cons (by decide) (goodStr_natDecimal k))

/-- The delimiter contains neither newline nor carriage return. -/
theorem goodStr_pickDelimiter (path : JStr) (index : Nat) (content : JStr) :
    goodStr (pickDelimiter path index content) := by
  have hbase : goodStr (delimiterWord index ++ '_' :: natDecimal index
      ++ '_' :: createPathHash path) :=
    goodStr_append
      (goodStr_append (goodStr_delimiterWord index)
        (goodStr_cons (by decide) (goodStr_natDecimal index)))
      (goodStr_cons (by decide) (goodStr_createPathHash path))
  have hfb : goodStr (delimiterWord index ++ '_' :: natDecimal index
      ++ '_' :: createPathHash path ++ '_' :: strToUpper (natToBase 36 content.length)) := by
    refine goodStr_append hbase ?_
    exact goodStr_cons (by decide) (goodStr_strToUpper_natToBase (by omega) (by omega) _)
  simp only [pickDelimiter]
  split
  · split
    · rename_i c hc
      exact goodStr_probeAttempts hbase 256 1 c hc
    · split
      · exact goodStr_probeUnbounded hfb _ _
      · exact hfb
  · exact hbase

theorem stripCR_eq_of_good {s : JStr} (hs : goodStr s) : stripCR s = s := by
  unfold stripCR
  split
  · rename_i h
    exfalso
    obtain ⟨hne, heq⟩ := List.mem_getLast?_eq_getLast (show '\r' ∈ s.getLast? from h ▸ rfl)
    exact (hs _ (heq ▸ List.getLast_mem hne)).2 rfl
  · rfl

/-- The delimiter never occurs as a raw line of the content either. -/
theorem pickDelimiter_not_content_line (path : JStr) (index : Nat) (content : JStr) :
    ∀ l ∈ splitOnNl content, l ≠ pickDelimiter path index content := by
  intro l hl heq
  apply pickDelimiter_not_mem_lineSet path index content
  have : stripCR l ∈ buildLineSet content := List.mem_map_of_mem stripCR hl
  rw [heq, stripCR_eq_of_good (goodStr_pickDelimiter path index content)] at this
  exact this

theorem splitOnNl_append_cons_nl (a b : JStr) :
    splitOnNl (a ++ '\n' :: b) = splitOnNl a ++ splitOnNl b := by
  induction a with
  | nil => simp [splitOnNl]
  | cons c rest ih =>
    by_cases hc : c = '\n'
    · subst hc
      simp only [List.cons_append, splitOnNl, ih, List.append_eq]
      simp
    · simp only [List.cons_append, splitOnNl, if_neg hc, List.append_eq, ih]
      cases hs : splitOnNl rest with
      | nil => exact absurd hs (splitOnNl_ne_nil rest)
      | cons l ls => simp

/-- The line decomposition of a framed block, for a newline-free path: the
header line, the marker line, the body's lines, and the closing delimiter
line. -/
theorem splitOnNl_formatContentBlock {path : JStr} (body : JStr) (index : Nat)
    (hpath : '\n' ∉ path) :
    splitOnNl (formatContentBlock path body index) =
      ('@' :: path) :: ('<' :: '<' :: '\'' :: pickDelimiter path index body ++ ['\''])
        :: (splitOnNl body ++ [pickDelimiter path index body]) := by
  have hd := goodStr_pickDelimiter path index body
  have hblock : formatContentBlock path body index =
      ('@' :: path) ++ '\n' :: (('<' :: '<' :: '\'' :: pickDelimiter path index body
        ++ ['\'']) ++ '\n' :: (body ++ '\n' :: pickDelimiter path index body)) := by
    simp [formatContentBlock, List.append_assoc]
  rw [hblock]
  rw [splitOnNl_append_cons_nl, splitOnNl_append_cons_nl, splitOnNl_append_cons_nl]
  have h1 : splitOnNl ('@' :: path) = ['@' :: path] :=
    splitOnNl_of_no_nl (by simp [hpath])
  have h2 : splitOnNl ('<' :: '<' :: '\'' :: pickDelimiter path index body ++ ['\'']) =
      ['<' :: '<' :: '\'' :: pickDelimiter path index body ++ ['\'']] := by
    apply splitOnNl_of_no_nl
    intro hmem
    simp only [List.cons_append, List.mem_cons, List.mem_append, List.mem_singleton] at hmem
    rcases hmem with h | h | h | h | h
    · exact absurd h (by decide)
    · exact absurd h (by decide)
    · exact absurd h (by decide)
    · exact (hd _ h).1 rfl
    · exact absurd h (by decide)
  have h3 : splitOnNl (pickDelimiter path index body) = [pickDelimiter path index body] :=
    splitOnNl_of_no_nl (fun hmem => (hd _ hmem).1 rfl)
  rw [h1, h2, h3]
  simp

/-- Round-trip for newline-free paths: splitting the framed block recovers
the body byte-for-byte. -/
theorem parseBlock_formatContentBlock {path : JStr} (body : JStr) (index : Nat)
    (hpath : '\n' ∉ path) :
    parseBlock (formatContentBlock path body index) = some body := by
  unfold parseBlock
  rw [splitOnNl_formatContentBlock body index hpath]
  cases hs : splitOnNl body with
  | nil => exact absurd hs (splitOnNl_ne_nil body)
  | cons l ls =>
    simp only [List.cons_append]
    have hdrop : ((l :: ls) ++ [pickDelimiter path index body]).dropLast = l :: ls :=
      List.dropLast_concat ..
    simp only [List.cons_append] at hdrop
    rw [hdrop, ← hs, joinNl_splitOnNl]

theorem fullPass_requestOrder_stop (B : Budget) (cands : List FileCandidate) :
    ∀ (pre : List Nat) (st : PackState) (i : Nat) (post : List Nat),
      (pre ++ i :: post).Nodup →
      i ∉ (fullPass B .requestOrder cands st (pre ++ i :: post)).2.1 →
      ∀ j ∈ post, j ∉ (fullPass B .requestOrder cands st (pre ++ i :: post)).2.1 := by
  intro pre
  induction pre with
  | nil =>
    intro st i post hnd hi j hj
    simp only [List.nil_append, fullPass] at hi ⊢
    split at hi
    · simp at hi
    · rename_i hc
      rw [if_neg hc]
      simp
  | cons p pre' ih =>
    intro st i post hnd hi j hj
    simp only [List.cons_append, fullPass] at hi ⊢
    split at hi
    · rename_i hc
      rw [if_pos hc]
      simp only [List.mem_cons, not_or] at hi ⊢
      refine ⟨?_, ?_⟩
      · intro hjp
        subst hjp
        exact (List.nodup_cons.mp hnd).1 (by simp [hj])
      · exact ih _ i post (List.nodup_cons.mp hnd).2 hi.2 j hj
    · rename_i hc
      rw [if_neg hc]
      simp

/-- Whenever the shrink-to-fit loop returns a text, that text's measured
lines and bytes are within the remaining budget it was given. -/
theorem partialLoop_le (path body : JStr) (index remainingLines remainingBytes : Nat) :
    ∀ fuel maxBodyLines maxBodyBytes t,
      partialLoop path body index remainingLines remainingBytes fuel maxBodyLines maxBodyBytes
        = some t →
      (measureText t).lines ≤ remainingLines ∧ (measureText t).bytes ≤ remainingBytes := by
  intro fuel
  induction fuel with
  | zero => intro mbl mbb t h; simp [partialLoop] at h
  | succ f ih =>
    intro mbl mbb t h
    simp only [partialLoop] at h
    split at h
    · exact absurd h (by simp)
    · split at h
      · rename_i hfit
        cases h
        exact hfit
      · exact ih _ _ t h

theorem buildPartialSection_le (c : FileCandidate) (remainingLines remainingBytes : Nat)
    (t : JStr) (h : buildPartialSection c remainingLines remainingBytes = some t) :
    (measureText t).lines ≤ remainingLines ∧ (measureText t).bytes ≤ remainingBytes := by
  unfold buildPartialSection at h
  split at h
  · exact absurd h (by simp)
  · split at h
    · exact absurd h (by simp)
    · exact partialLoop_le _ _ _ _ _ 16 _ _ t h

/-- Everything `partialScan` guarantees about an accepted partial section:
its metrics are the measure of its text, it is not among the fully
included, its index-candidate pair occurs in the scanned list, its rendered
size fits the remaining budget at the (unchanged) state, and that remaining
budget was strictly positive. -/
theorem partialScan_spec (B : Budget) (full : List Nat) (st : PackState) :
    ∀ l ps, partialScan B full st l = some ps →
      ps.metrics = measureText ps.text ∧
      ps.index ∉ full ∧
      (∃ c, (ps.index, c) ∈ l ∧
        buildPartialSection c (B.maxLines - st.usedLines - sepLines st)
          (B.maxBytes - st.usedBytes - sepBytes st) = some ps.text) ∧
      (measureText ps.text).lines ≤ B.maxLines - st.usedLines - sepLines st ∧
      (measureText ps.text).bytes ≤ B.maxBytes - st.usedBytes - sepBytes st ∧
      st.usedLines + sepLines st < B.maxLines ∧
      st.usedBytes + sepBytes st < B.maxBytes := by
  intro l
  induction l with
  | nil => intro ps h; simp [partialScan] at h
  | cons p rest ih =>
    intro ps h
    match p with
    | (i, c) =>
      simp only [partialScan] at h
      split at h
      · rename_i hin
        obtain ⟨h1, h2, ⟨c', hc', h3⟩, h4⟩ := ih ps h
        exact ⟨h1, h2, ⟨c', List.mem_cons_of_mem _ hc', h3⟩, h4⟩
      · rename_i hnotin
        split at h
        · exact absurd h (by simp)
        · rename_i hrem
          split at h
          · rename_i hbuild
            obtain ⟨h1, h2, ⟨c', hc', h3⟩, h4⟩ := ih ps h
            exact ⟨h1, h2, ⟨c', List.mem_cons_of_mem _ hc', h3⟩, h4⟩
          · rename_i t hbuild
            cases h
            have hle := buildPartialSection_le c _ _ t hbuild
            refine ⟨rfl, hnotin, ⟨c, List.mem_cons_self _ _, hbuild⟩, hle.1, hle.2, ?_, ?_⟩
            · omega
            · omega

/-- The full pass adds exactly the included candidates' metrics to the
state, in inclusion order, and the included list is a sublist of the
order. -/
theorem fullPass_spec (B : Budget) (strategy : PackingStrategy)
    (cands : List FileCandidate) :
    ∀ order st,
      List.Sublist (fullPass B strategy cands st order).2.1 order ∧
      (fullPass B strategy cands st order).1 =
        List.foldl addSection st
          ((fullPass B strategy cands st order).2.1.map
            (fun i => (cands.getD i defaultCandidate).fullMetrics)) := by
  intro order
  induction order with
  | nil =>
    intro st
    exact ⟨List.Sublist.refl _, rfl⟩
  | cons i rest ih =>
    intro st
    simp only [fullPass]
    split
    · obtain ⟨hsub, hst⟩ := ih (addSection st (cands.getD i defaultCandidate).fullMetrics)
      exact ⟨List.Sublist.cons₂ i hsub, by simpa using hst⟩
    · match strategy with
      | .requestOrder =>
        exact ⟨List.nil_sublist _, rfl⟩
      | .smallestFirst =>
        obtain ⟨hsub, hst⟩ := ih st
        exact ⟨List.Sublist.cons i hsub, hst⟩

/-- The full pass keeps the running totals within budget. -/
theorem fullPass_within (B : Budget) (strategy : PackingStrategy)
    (cands : List FileCandidate) :
    ∀ order st, st.usedBytes ≤ B.maxBytes → st.usedLines ≤ B.maxLines →
      (fullPass B strategy cands st order).1.usedBytes ≤ B.maxBytes ∧
      (fullPass B strategy cands st order).1.usedLines ≤ B.maxLines := by
  intro order
  induction order with
  | nil => intro st hb hl; exact ⟨hb, hl⟩
  | cons i rest ih =>
    intro st hb hl
    simp only [fullPass]
    split
    · rename_i hc
      simp only [canFitSection, Bool.and_eq_true, decide_eq_true_eq] at hc
      exact ih _ (by simp only [addSection]; omega) (by simp only [addSection]; omega)
    · match strategy with
      | .requestOrder => exact ⟨hb, hl⟩
      | .smallestFirst => exact ih st hb hl

/-- Folding `addSection` over a metrics list, starting from a state that
already has a section, pays the separator for every element. -/
theorem foldl_addSection_pos (ms : List TextMetrics) :
    ∀ st : PackState, 0 < st.sectionCount →
      List.foldl addSection st ms =
        ⟨st.usedBytes + (ms.map TextMetrics.bytes).sum + 2 * ms.length,
         st.usedLines + (ms.map TextMetrics.lines).sum + ms.length,
         st.sectionCount + ms.length⟩ := by
  induction ms with
  | nil => intro st _; simp
  | cons m rest ih =>
    intro st hpos
    simp only [List.foldl_cons]
    rw [ih (addSection st m) (by simp [addSection])]
    simp only [addSection, sepBytes, sepLines, if_pos hpos]
    simp only [List.map_cons, List.sum_cons, List.length_cons]
    refine PackState.mk.injEq .. ▸ ?_
    refine ⟨?_, ?_, ?_⟩ <;> omega

/-- Accounting from the empty state: with `k` additions the totals are the
component sums plus `k - 1` separators. -/
theorem foldl_addSection_zero (ms : List TextMetrics) :
    List.foldl addSection ⟨0, 0, 0⟩ ms =
      ⟨(ms.map TextMetrics.bytes).sum + 2 * (ms.length - 1),
       (ms.map TextMetrics.lines).sum + (ms.length - 1),
       ms.length⟩ := by
  cases ms with
  | nil => simp
  | cons m rest =>
    simp only [List.foldl_cons]
    have h0 : addSection ⟨0, 0, 0⟩ m = ⟨m.bytes, m.lines, 1⟩ := by
      simp [addSection, sepBytes, sepLines]
    rw [h0, foldl_addSection_pos rest ⟨m.bytes, m.lines, 1⟩ (by simp)]
    simp only [List.map_cons, List.sum_cons, List.length_cons]
    refine PackState.mk.injEq .. ▸ ?_
    refine ⟨?_, ?_, ?_⟩ <;> omega

/-- Two positions of a list, in order, form a sublist. -/
theorem pair_sublist_of_lt {α : Type} :
    ∀ (l : List α) (i j : Nat) (hij : i < j) (hj : j < l.length),
      List.Sublist [l.get ⟨i, by omega⟩, l.get ⟨j, hj⟩] l := by
  intro l
  induction l with
  | nil => intro i j hij hj; simp at hj
  | cons a rest ih =>
    intro i j hij hj
    match i, j with
    | 0, j + 1 =>
      refine List.Sublist.cons₂ a ?_
      refine List.singleton_sublist.mpr ?_
      have hjr : j < rest.length := by simpa using hj
      have : (a :: rest).get ⟨j + 1, hj⟩ = rest.get ⟨j, hjr⟩ := rfl
      rw [this]
      exact List.get_mem rest j hjr
    | i + 1, j + 1 =>
      refine List.Sublist.cons a ?_
      exact ih i j (by omega) (by simpa using hj)

/-- `sectionsFrom` preserves sublists. -/
theorem sectionsFrom_sublist (plan : PackingPlan) :
    ∀ {l₁ l₂ : List (Nat × FileCandidate)}, List.Sublist l₁ l₂ →
      List.Sublist (sectionsFrom plan l₁) (sectionsFrom plan l₂) := by
  intro l₁ l₂ h
  induction h with
  | slnil => exact List.Sublist.refl _
  | cons p hsub ih =>
    rename_i l₁' l₂'
    show List.Sublist _ (sectionsFrom plan (p :: l₂'))
    match p with
    | (i, c) =>
      simp only [sectionsFrom]
      split
      · exact ih.cons _
      · exact ih
  | cons₂ p hsub ih =>
    rename_i l₁' l₂'
    match p with
    | (i, c) =>
      simp only [sectionsFrom]
      split
      · exact ih.cons₂ _
      · exact ih

/-- Included sections appear in the rendered section list in index order. -/
theorem planSections_pair_sublist (cands : List FileCandidate) (plan : PackingPlan)
    (i j : Nat) (hij : i < j) (hj : j < cands.length) (ti tj : JStr)
    (hti : sectionTextAt plan i (cands.getD i defaultCandidate) = some ti)
    (htj : sectionTextAt plan j (cands.getD j defaultCandidate) = some tj) :
    List.Sublist [ti, tj] (planSections cands plan) := by
  have hi : i < cands.length := by omega
  have hjl : j < cands.enum.length := by simpa using hj
  have hil : i < cands.enum.length := by simp only [List.enum_length]; omega
  have hpair : List.Sublist [cands.enum.get ⟨i, hil⟩, cands.enum.get ⟨j, hjl⟩] cands.enum :=
    pair_sublist_of_lt cands.enum i j hij hjl
  have hgi : cands.enum.get ⟨i, hil⟩ = (i, cands.getD i defaultCandidate) := by
    have h1 := List.getElem_enum cands i (by simpa using hi)
    simp only [List.get_eq_getElem, h1]
    rw [List.getD_eq_getElem?_getD, List.getElem?_eq_getElem hi]
    rfl
  have hgj : cands.enum.get ⟨j, hjl⟩ = (j, cands.getD j defaultCandidate) := by
    have h1 := List.getElem_enum cands j (by simpa using hj)
    simp only [List.get_eq_getElem, h1]
    rw [List.getD_eq_getElem?_getD, List.getElem?_eq_getElem hj]
    rfl
  have hsub := sectionsFrom_sublist plan hpair
  rw [hgi, hgj] at hsub
  have hred : sectionsFrom plan
      [(i, cands.getD i defaultCandidate), (j, cands.getD j defaultCandidate)] = [ti, tj] := by
    simp only [sectionsFrom, hti, htj]
  rw [hred] at hsub
  exact hsub

/-- Splitting the rendered sections into the fully-included texts and the
(at most one) partial text: a permutation. -/
theorem sectionsFrom_perm (plan : PackingPlan) :
    ∀ l : List (Nat × FileCandidate),
      (sectionsFrom plan l).Perm
        (((l.filter (fun p => decide (p.1 ∈ plan.fullIncluded))).map
            (fun p => p.2.fullText)) ++
         ((l.filter (fun p => !decide (p.1 ∈ plan.fullIncluded) &&
              plan.partialSection.any (fun ps => ps.index = p.1))).map
            (fun _ => partialTextOf plan))) := by
  intro l
  induction l with
  | nil => simp [sectionsFrom]
  | cons p rest ih =>
    match p with
    | (i, c) =>
      simp only [sectionsFrom, List.filter_cons]
      by_cases hfull : i ∈ plan.fullIncluded
      · have h1 : sectionTextAt plan i c = some c.fullText := by
          simp [sectionTextAt, hfull]
        rw [h1, if_pos (by simpa using hfull), if_neg (by simp [hfull])]
        simp only [List.map_cons, List.cons_append]
        exact ih.cons _
      · cases hps : plan.partialSection with
        | none =>
          have h1 : sectionTextAt plan i c = none := by
            simp [sectionTextAt, hfull, hps]
          rw [h1, if_neg (by simpa using hfull), if_neg (by simp [hps])]
          rw [hps] at ih
          exact ih
        | some ps =>
          by_cases hidx : ps.index = i
          · have h1 : sectionTextAt plan i c = some ps.text := by
              simp [sectionTextAt, hfull, hps, hidx]
            have hpt : partialTextOf plan = ps.text := by
              simp [partialTextOf, hps]
            rw [h1, if_neg (by simpa using hfull), if_pos (by simp [hfull, hps, hidx])]
            rw [hps] at ih
            simp only [List.map_cons]
            refine (ih.cons ps.text).trans ?_
            rw [hpt]
            exact List.perm_middle.symm
          · have h1 : sectionTextAt plan i c = none := by
              simp [sectionTextAt, hfull, hps, hidx]
            rw [h1, if_neg (by simpa using hfull), if_neg (by simp [hfull, hps, hidx])]
            rw [hps] at ih
            exact ih

theorem enum_nodup {α : Type} (l : List α) : l.enum.Nodup := by
  apply List.Nodup.of_map Prod.fst
  rw [List.enum_map_fst]
  exact List.nodup_range _

theorem mem_enum_getD (cands : List FileCandidate) (i : Nat) (c : FileCandidate) :
    (i, c) ∈ cands.enum ↔ i < cands.length ∧ c = cands.getD i defaultCandidate := by
  rw [List.mem_enum_iff_getElem?]
  constructor
  · intro h
    have hlt : i < cands.length := by
      by_contra hge
      rw [List.getElem?_eq_none (by omega)] at h
      exact Option.noConfusion h
    refine ⟨hlt, ?_⟩
    rw [List.getD_eq_getElem?_getD, h]
    rfl
  · intro ⟨hlt, hc⟩
    rw [List.getElem?_eq_getElem hlt]
    rw [List.getD_eq_getElem?_getD, List.getElem?_eq_getElem hlt] at hc
    exact congrArg some hc.symm

/-- Filtering the enumerated candidates by a key predicate is, up to
permutation, the key list paired with its candidates. -/
theorem filter_enum_perm (cands : List FileCandidate) (q : Nat → Bool) (keys : List Nat)
    (hnd : keys.Nodup) (hlt : ∀ i ∈ keys, i < cands.length)
    (hiff : ∀ i, i < cands.length → (q i = true ↔ i ∈ keys)) :
    (cands.enum.filter (fun p => q p.1)).Perm
      (keys.map (fun i => (i, cands.getD i defaultCandidate))) := by
  apply (List.perm_ext_iff_of_nodup ?_ ?_).mpr
  · intro p
    match p with
    | (i, c) =>
      simp only [List.mem_filter, mem_enum_getD, List.mem_map]
      constructor
      · intro ⟨⟨hi, hc⟩, hq⟩
        exact ⟨i, (hiff i hi).mp hq, by rw [hc]⟩
      · intro ⟨i', hi', heq⟩
        injection heq with h1 h2
        subst h1
        subst h2
        exact ⟨⟨hlt _ hi', rfl⟩, (hiff _ (hlt _ hi')).mpr hi'⟩
  · exact (enum_nodup cands).filter _
  · refine List.Nodup.map ?_ hnd
    intro a b h
    simpa using congrArg Prod.fst h

/-- Byte and line metrics of the blank-line join, for a nonempty section
list. -/
theorem measure_joinSections (l : List JStr) (hne : l ≠ []) :
    utf8Len (joinSections l) = (l.map utf8Len).sum + 2 * (l.length - 1) ∧
    (splitOnNl (joinSections l)).length =
      (l.map (fun s => (splitOnNl s).length)).sum + (l.length - 1) := by
  induction l with
  | nil => exact absurd rfl hne
  | cons s rest ih =>
    cases rest with
    | nil => simp [joinSections]
    | cons s' rest' =>
      obtain ⟨ihb, ihl⟩ := ih (by simp)
      have hjs : joinSections (s :: s' :: rest') =
          s ++ '\n' :: '\n' :: joinSections (s' :: rest') := rfl
      constructor
      · rw [hjs, utf8Len_append]
        have : utf8Len ('\n' :: '\n' :: joinSections (s' :: rest')) =
            2 + utf8Len (joinSections (s' :: rest')) := by
          simp only [utf8Len, List.map_cons, List.sum_cons]
          rw [show Char.utf8Size '\n' = 1 from by decide]
          omega
        rw [this, ihb]
        simp only [List.map_cons, List.sum_cons, List.length_cons]
        omega
      · rw [hjs]
        have h1 : s ++ '\n' :: '\n' :: joinSections (s' :: rest') =
            s ++ '\n' :: ('\n' :: joinSections (s' :: rest')) := rfl
        rw [h1, splitOnNl_append_cons_nl]
        have h2 : splitOnNl ('\n' :: joinSections (s' :: rest')) =
            [] :: splitOnNl (joinSections (s' :: rest')) := by
          simp [splitOnNl]
        rw [h2]
        simp only [List.length_append, List.length_cons, List.map_cons, List.sum_cons,
          List.length_cons]
        rw [ihl]
        simp
        omega

theorem getD_mem_of_lt (cands : List FileCandidate) (i : Nat) (h : i < cands.length) :
    cands.getD i defaultCandidate ∈ cands := by
  rw [List.getD_eq_getElem?_getD, List.getElem?_eq_getElem h]
  exact List.getElem_mem _

/-- How each field of `buildPlan`'s result is computed. -/
theorem buildPlan_proj (B : Budget) (strategy : PackingStrategy) (order : List Nat)
    (cands : List FileCandidate) :
    (buildPlan B strategy order cands).fullIncluded =
      (fullPass B strategy cands ⟨0, 0, 0⟩ order).2.1 ∧
    (buildPlan B strategy order cands).partialSection =
      partialScan B (fullPass B strategy cands ⟨0, 0, 0⟩ order).2.1
        (fullPass B strategy cands ⟨0, 0, 0⟩ order).1 cands.enum ∧
    (buildPlan B strategy order cands).usedBytes =
      (match partialScan B (fullPass B strategy cands ⟨0, 0, 0⟩ order).2.1
          (fullPass B strategy cands ⟨0, 0, 0⟩ order).1 cands.enum with
        | none => (fullPass B strategy cands ⟨0, 0, 0⟩ order).1
        | some ps =>
          addSection (fullPass B strategy cands ⟨0, 0, 0⟩ order).1 ps.metrics).usedBytes ∧
    (buildPlan B strategy order cands).usedLines =
      (match partialScan B (fullPass B strategy cands ⟨0, 0, 0⟩ order).2.1
          (fullPass B strategy cands ⟨0, 0, 0⟩ order).1 cands.enum with
        | none => (fullPass B strategy cands ⟨0, 0, 0⟩ order).1
        | some ps =>
          addSection (fullPass B strategy cands ⟨0, 0, 0⟩ order).1 ps.metrics).usedLines ∧
    (buildPlan B strategy order cands).sectionCount =
      (match partialScan B (fullPass B strategy cands ⟨0, 0, 0⟩ order).2.1
          (fullPass B strategy cands ⟨0, 0, 0⟩ order).1 cands.enum with
        | none => (fullPass B strategy cands ⟨0, 0, 0⟩ order).1
        | some ps =>
          addSection (fullPass B strategy cands ⟨0, 0, 0⟩ order).1 ps.metrics).sectionCount ∧
    (buildPlan B strategy order cands).fullCount =
      (fullPass B strategy cands ⟨0, 0, 0⟩ order).2.1.length ∧
    (buildPlan B strategy order cands).fullSuccessCount =
      (fullPass B strategy cands ⟨0, 0, 0⟩ order).2.2 ∧
    (buildPlan B strategy order cands).strategy = strategy :=
  ⟨rfl, rfl, rfl, rfl, rfl, rfl, rfl, rfl⟩

/-- The planner's accounting against the rendered text: the used totals
stay within the ceilings; with at least one rendered section the joined
text measures exactly the used totals; with none, the used totals are zero
(while the empty joined text has line metric 1); and the rendered section
count matches the plan's. -/
theorem buildPlan_accounting (B : Budget) (strategy : PackingStrategy) (order : List Nat)
    (cands : List FileCandidate)
    (hwf : ∀ c ∈ cands, c.fullMetrics = measureText c.fullText)
    (hnd : order.Nodup) (hbound : ∀ i ∈ order, i < cands.length) :
    (buildPlan B strategy order cands).usedBytes ≤ B.maxBytes ∧
    (buildPlan B strategy order cands).usedLines ≤ B.maxLines ∧
    (planSections cands (buildPlan B strategy order cands)).length =
      (buildPlan B strategy order cands).sectionCount ∧
    (planSections cands (buildPlan B strategy order cands) ≠ [] →
      measureText (joinSections (planSections cands (buildPlan B strategy order cands))) =
        ⟨(buildPlan B strategy order cands).usedBytes,
         (buildPlan B strategy order cands).usedLines⟩) ∧
    (planSections cands (buildPlan B strategy order cands) = [] →
      (buildPlan B strategy order cands).usedBytes = 0 ∧
      (buildPlan B strategy order cands).usedLines = 0) := by
  obtain ⟨hfullEq, hpartEq, hbytesEq, hlinesEq, hsecEq, _, _, _⟩ :=
    buildPlan_proj B strategy order cands
  obtain ⟨hsub, hfold⟩ := fullPass_spec B strategy cands order ⟨0, 0, 0⟩
  have hwithin := fullPass_within B strategy cands order ⟨0, 0, 0⟩ (by simp) (by simp)
  set plan := buildPlan B strategy order cands with hplan
  set st := (fullPass B strategy cands ⟨0, 0, 0⟩ order).1 with hstdef
  set inc := (fullPass B strategy cands ⟨0, 0, 0⟩ order).2.1 with hincdef
  have hincnd : inc.Nodup := hnd.sublist hsub
  have hincb : ∀ i ∈ inc, i < cands.length := fun i hi => hbound i (hsub.subset hi)
  set ms := inc.map (fun i => (cands.getD i defaultCandidate).fullMetrics) with hmsdef
  have hstval : st = ⟨(ms.map TextMetrics.bytes).sum + 2 * (ms.length - 1),
      (ms.map TextMetrics.lines).sum + (ms.length - 1), ms.length⟩ :=
    hfold.trans (foldl_addSection_zero ms)
  have hmslen : ms.length = inc.length := by simp [hmsdef]
  have hmsb : ms.map TextMetrics.bytes =
      inc.map (fun i => utf8Len ((cands.getD i defaultCandidate).fullText)) := by
    rw [hmsdef, List.map_map]
    apply List.map_congr_left
    intro i hi
    have h1 := hwf _ (getD_mem_of_lt cands i (hincb i hi))
    show ((cands.getD i defaultCandidate).fullMetrics).bytes = _
    rw [h1]
    rfl
  have hmsl : ms.map TextMetrics.lines =
      inc.map (fun i => (splitOnNl ((cands.getD i defaultCandidate).fullText)).length) := by
    rw [hmsdef, List.map_map]
    apply List.map_congr_left
    intro i hi
    have h1 := hwf _ (getD_mem_of_lt cands i (hincb i hi))
    show ((cands.getD i defaultCandidate).fullMetrics).lines = _
    rw [h1]
    rfl
  have hpermA := filter_enum_perm cands (fun i => decide (i ∈ inc)) inc hincnd hincb
    (by intro i _; simp)
  have hpermA' : ((cands.enum.filter (fun p => decide (p.1 ∈ inc))).map
      (fun p => p.2.fullText)).Perm
      (inc.map (fun i => (cands.getD i defaultCandidate).fullText)) := by
    have := hpermA.map (fun p : Nat × FileCandidate => p.2.fullText)
    rw [List.map_map] at this
    exact this
  have hsecFrom := sectionsFrom_perm plan cands.enum
  rw [hfullEq] at hsecFrom
  cases hpart : partialScan B inc st cands.enum with
  | none =>
    have hbytes' : plan.usedBytes = st.usedBytes := by rw [hbytesEq, hpart]
    have hlines' : plan.usedLines = st.usedLines := by rw [hlinesEq, hpart]
    have hsec' : plan.sectionCount = st.sectionCount := by rw [hsecEq, hpart]
    rw [hpartEq] at hsecFrom
    rw [hpart] at hsecFrom
    simp only [Option.any_none, Bool.and_false, List.filter_false, List.map_nil,
      List.append_nil] at hsecFrom
    have hsecPerm : (planSections cands plan).Perm
        (inc.map (fun i => (cands.getD i defaultCandidate).fullText)) :=
      hsecFrom.trans hpermA'
    have hlen : (planSections cands plan).length = inc.length := by
      rw [hsecPerm.length_eq, List.length_map]
    refine ⟨?_, ?_, ?_, ?_, ?_⟩
    · rw [hbytes']; exact hwithin.1
    · rw [hlines']; exact hwithin.2
    · rw [hlen, hsec', hstval]; simp [hmslen]
    · intro hne
      obtain ⟨hjb, hjl⟩ := measure_joinSections _ hne
      have hsum_b : ((planSections cands plan).map utf8Len).sum =
          (ms.map TextMetrics.bytes).sum := by
        rw [(hsecPerm.map utf8Len).sum_eq, List.map_map, hmsb]
        rfl
      have hsum_l : ((planSections cands plan).map (fun s => (splitOnNl s).length)).sum =
          (ms.map TextMetrics.lines).sum := by
        rw [(hsecPerm.map (fun s => (splitOnNl s).length)).sum_eq, List.map_map, hmsl]
        rfl
      have hkpos : inc.length ≠ 0 := by
        intro h0
        apply hne
        apply List.eq_nil_of_length_eq_zero
        rw [hlen, h0]
      rw [measureText, hbytes', hlines', hstval]
      refine TextMetrics.mk.injEq .. ▸ ?_
      refine ⟨?_, ?_⟩
      · rw [hjb, hsum_b, hlen, hmslen]
      · rw [hjl, hsum_l, hlen, hmslen]
    · intro hempty
      have hk0 : inc.length = 0 := by rw [← hlen, hempty]; rfl
      have hms0 : ms = [] := by
        apply List.eq_nil_of_length_eq_zero
        rw [hmslen, hk0]
      rw [hbytes', hlines', hstval, hms0]
      simp
  | some ps =>
    obtain ⟨hmeq, hnotin, ⟨c, hcin, _⟩, hle_l, hle_b, hlt_l, hlt_b⟩ :=
      partialScan_spec B inc st cands.enum ps hpart
    have hpslt : ps.index < cands.length := ((mem_enum_getD cands ps.index c).mp hcin).1
    have hbytes' : plan.usedBytes = st.usedBytes + sepBytes st + ps.metrics.bytes := by
      rw [hbytesEq, hpart]
      rfl
    have hlines' : plan.usedLines = st.usedLines + sepLines st + ps.metrics.lines := by
      rw [hlinesEq, hpart]
      rfl
    have hsec' : plan.sectionCount = st.sectionCount + 1 := by
      rw [hsecEq, hpart]
      rfl
    have hpt : partialTextOf plan = ps.text := by
      simp [partialTextOf, hpartEq, hpart]
    rw [hpartEq, hpart] at hsecFrom
    simp only [Option.any_some, hpt] at hsecFrom
    have hpermB := filter_enum_perm cands
      (fun i => !decide (i ∈ inc) && decide (ps.index = i)) [ps.index]
      (List.nodup_singleton _) (by intro i hi; simp at hi; omega)
      (by
        intro i _
        simp only [Bool.and_eq_true, Bool.not_eq_true', decide_eq_false_iff_not,
          decide_eq_true_eq, List.mem_singleton]
        constructor
        · intro ⟨_, h2⟩; omega
        · intro h
          subst h
          exact ⟨hnotin, rfl⟩)
    have hpermB' : ((cands.enum.filter
        (fun p => !decide (p.1 ∈ inc) && decide (ps.index = p.1))).map
          (fun _ => ps.text)).Perm [ps.text] := by
      have := hpermB.map (fun _ : Nat × FileCandidate => ps.text)
      rw [List.map_map] at this
      exact this
    have hsecPerm : (planSections cands plan).Perm
        ((inc.map (fun i => (cands.getD i defaultCandidate).fullText)) ++ [ps.text]) :=
      hsecFrom.trans (hpermA'.append hpermB')
    have hlen : (planSections cands plan).length = inc.length + 1 := by
      rw [hsecPerm.length_eq]
      simp
    have hmb : ps.metrics.bytes = utf8Len ps.text := by rw [hmeq]; rfl
    have hml : ps.metrics.lines = (splitOnNl ps.text).length := by rw [hmeq]; rfl
    have hle_b' : utf8Len ps.text ≤ B.maxBytes - st.usedBytes - sepBytes st := hle_b
    have hle_l' : (splitOnNl ps.text).length ≤ B.maxLines - st.usedLines - sepLines st := hle_l
    refine ⟨?_, ?_, ?_, ?_, ?_⟩
    · rw [hbytes', hmb]; omega
    · rw [hlines', hml]; omega
    · rw [hlen, hsec', hstval]; simp [hmslen]
    · intro hne
      obtain ⟨hjb, hjl⟩ := measure_joinSections _ hne
      have hsum_b : ((planSections cands plan).map utf8Len).sum =
          (ms.map TextMetrics.bytes).sum + utf8Len ps.text := by
        rw [(hsecPerm.map utf8Len).sum_eq]
        simp only [List.map_append, List.sum_append, List.map_map, List.map_cons,
          List.map_nil, List.sum_cons, List.sum_nil]
        rw [hmsb]
        rfl
      have hsum_l : ((planSections cands plan).map (fun s => (splitOnNl s).length)).sum =
          (ms.map TextMetrics.lines).sum + (splitOnNl ps.text).length := by
        rw [(hsecPerm.map (fun s => (splitOnNl s).length)).sum_eq]
        simp only [List.map_append, List.sum_append, List.map_map, List.map_cons,
          List.map_nil, List.sum_cons, List.sum_nil]
        rw [hmsl]
        rfl
      rw [measureText, hbytes', hlines', hstval]
      refine TextMetrics.mk.injEq .. ▸ ?_
      refine ⟨?_, ?_⟩
      · rw [hjb, hsum_b, hlen, hmb]
        simp only [sepBytes, hmslen]
        split <;> omega
      · rw [hjl, hsum_l, hlen, hml]
        simp only [sepLines, hmslen]
        split <;> omega
    · intro hempty
      exfalso
      have := congrArg List.length hempty
      rw [hlen] at this
      simp at this

/-- Every candidate the read loop builds carries the measure of its own
full text. -/
theorem readLoop_wf (stopOnError : Bool) :
    ∀ (i : Nat) (files : List FileRequest),
      ∀ c ∈ (readLoop stopOnError i files).1, c.fullMetrics = measureText c.fullText := by
  intro i files
  induction files generalizing i with
  | nil => intro c hc; simp [readLoop] at hc
  | cons f rest ih =>
    intro c hc
    cases hout : f.outcome with
    | success content =>
      simp only [readLoop, hout] at hc
      rcases List.mem_cons.mp hc with hc | hc
      · subst hc
        simp [processFile]
      · exact ih (i + 1) c hc
    | failure msg =>
      simp only [readLoop, hout] at hc
      split at hc
      · rcases List.mem_cons.mp hc with hc | hc
        · subst hc
          simp [processFile]
        · simp at hc
      · rcases List.mem_cons.mp hc with hc | hc
        · subst hc
          simp [processFile]
        · exact ih (i + 1) c hc

/-- How each field of `execute`'s result is computed. -/
theorem execute_proj (B : Budget) (stopOnError : Bool) (files : List FileRequest) :
    (execute B stopOnError files).candidates = (readLoop stopOnError 0 files).1 ∧
    (execute B stopOnError files).fileDetails = (readLoop stopOnError 0 files).2 ∧
    (execute B stopOnError files).processedCount = (readLoop stopOnError 0 files).2.length ∧
    (execute B stopOnError files).requestPlan =
      buildPlan B .requestOrder (List.range (readLoop stopOnError 0 files).1.length)
        (readLoop stopOnError 0 files).1 ∧
    (execute B stopOnError files).smallestPlan =
      buildPlan B .smallestFirst (smallestFirstOrder (readLoop stopOnError 0 files).1)
        (readLoop stopOnError 0 files).1 ∧
    (execute B stopOnError files).switchedForCoverage =
      decide ((execute B stopOnError files).requestPlan.fullSuccessCount <
        (execute B stopOnError files).smallestPlan.fullSuccessCount) ∧
    (execute B stopOnError files).chosenPlan =
      (if (execute B stopOnError files).switchedForCoverage = true
        then (execute B stopOnError files).smallestPlan
        else (execute B stopOnError files).requestPlan) ∧
    (execute B stopOnError files).plannedOutputText =
      joinSections (planSections (readLoop stopOnError 0 files).1
        (execute B stopOnError files).chosenPlan) ∧
    (execute B stopOnError files).outputText =
      (truncateHead (execute B stopOnError files).plannedOutputText B.maxLines B.maxBytes).content ∧
    (execute B stopOnError files).combinedTruncation =
      (if (truncateHead (execute B stopOnError files).plannedOutputText
            B.maxLines B.maxBytes).truncated = true
        then some (truncateHead (execute B stopOnError files).plannedOutputText
          B.maxLines B.maxBytes)
        else none) ∧
    (execute B stopOnError files).strategy = (execute B stopOnError files).chosenPlan.strategy := by
  exact ⟨rfl, rfl, rfl, rfl, rfl, rfl, rfl, rfl, rfl, rfl, rfl⟩

/-- The smallest-first order is a permutation of the identity order. -/
theorem smallestFirstOrder_perm (cands : List FileCandidate) :
    (smallestFirstOrder cands).Perm (List.range cands.length) :=
  List.perm_insertionSort _ _

theorem smallestFirstOrder_nodup (cands : List FileCandidate) :
    (smallestFirstOrder cands).Nodup :=
  (smallestFirstOrder_perm cands).nodup_iff.mpr (List.nodup_range _)

theorem smallestFirstOrder_bound (cands : List FileCandidate) :
    ∀ i ∈ smallestFirstOrder cands, i < cands.length := by
  intro i hi
  have := (smallestFirstOrder_perm cands).subset hi
  simpa using this

/-- Accounting carried to the orchestrator's chosen plan and final
truncation pass. -/
theorem execute_accounting (B : Budget) (stopOnError : Bool) (files : List FileRequest) :
    (execute B stopOnError files).chosenPlan.usedBytes ≤ B.maxBytes ∧
    (execute B stopOnError files).chosenPlan.usedLines ≤ B.maxLines ∧
    (planSections (execute B stopOnError files).candidates
        (execute B stopOnError files).chosenPlan ≠ [] →
      measureText (execute B stopOnError files).plannedOutputText =
        ⟨(execute B stopOnError files).chosenPlan.usedBytes,
         (execute B stopOnError files).chosenPlan.usedLines⟩) ∧
    (planSections (execute B stopOnError files).candidates
        (execute B stopOnError files).chosenPlan = [] →
      (execute B stopOnError files).chosenPlan.usedBytes = 0 ∧
      (execute B stopOnError files).chosenPlan.usedLines = 0 ∧
      (execute B stopOnError files).plannedOutputText = []) ∧
    (1 ≤ B.maxLines →
      (execute B stopOnError files).combinedTruncation = none ∧
      (execute B stopOnError files).outputText =
        (execute B stopOnError files).plannedOutputText) := by
  obtain ⟨hcand, _, _, hreq, hsmall, _, hchosen, hplanned, houtput, hcomb, _⟩ :=
    execute_proj B stopOnError files
  have hwf : ∀ c ∈ (readLoop stopOnError 0 files).1, c.fullMetrics = measureText c.fullText :=
    readLoop_wf stopOnError 0 files
  have haccReq := buildPlan_accounting B .requestOrder
    (List.range (readLoop stopOnError 0 files).1.length) (readLoop stopOnError 0 files).1
    hwf (List.nodup_range _) (by intro i hi; simpa using hi)
  have haccSmall := buildPlan_accounting B .smallestFirst
    (smallestFirstOrder (readLoop stopOnError 0 files).1) (readLoop stopOnError 0 files).1
    hwf (smallestFirstOrder_nodup _) (smallestFirstOrder_bound _)
  have hacc : (execute B stopOnError files).chosenPlan.usedBytes ≤ B.maxBytes ∧
      (execute B stopOnError files).chosenPlan.usedLines ≤ B.maxLines ∧
      (planSections (readLoop stopOnError 0 files).1
          (execute B stopOnError files).chosenPlan ≠ [] →
        measureText (joinSections (planSections (readLoop stopOnError 0 files).1
            (execute B stopOnError files).chosenPlan)) =
          ⟨(execute B stopOnError files).chosenPlan.usedBytes,
           (execute B stopOnError files).chosenPlan.usedLines⟩) ∧
      (planSections (readLoop stopOnError 0 files).1
          (execute B stopOnError files).chosenPlan = [] →
        (execute B stopOnError files).chosenPlan.usedBytes = 0 ∧
        (execute B stopOnError files).chosenPlan.usedLines = 0) := by
    rw [hchosen]
    split
    · rw [hsmall]
      exact ⟨haccSmall.1, haccSmall.2.1, haccSmall.2.2.2.1, haccSmall.2.2.2.2⟩
    · rw [hreq]
      exact ⟨haccReq.1, haccReq.2.1, haccReq.2.2.2.1, haccReq.2.2.2.2⟩
  rw [hcand]
  have hplanned' : (execute B stopOnError files).plannedOutputText =
      joinSections (planSections (readLoop stopOnError 0 files).1
        (execute B stopOnError files).chosenPlan) := hplanned
  refine ⟨hacc.1, hacc.2.1, ?_, ?_, ?_⟩
  · intro hne
    rw [hplanned']
    exact hacc.2.2.1 hne
  · intro hnil
    obtain ⟨hb0, hl0⟩ := hacc.2.2.2 hnil
    refine ⟨hb0, hl0, ?_⟩
    rw [hplanned', hnil]
    rfl
  · intro hml
    have hnoop : truncateHead (execute B stopOnError files).plannedOutputText
        B.maxLines B.maxBytes =
        ⟨(execute B stopOnError files).plannedOutputText, false⟩ := by
      unfold truncateHead
      rw [if_pos]
      by_cases hnil : planSections (readLoop stopOnError 0 files).1
          (execute B stopOnError files).chosenPlan = []
      · rw [hplanned', hnil]
        constructor
        · show (splitOnNl (joinSections [])).length ≤ B.maxLines
          simpa [joinSections, splitOnNl] using hml
        · show utf8Len (joinSections []) ≤ B.maxBytes
          simp [joinSections, utf8Len]
      · have hmeas := hacc.2.2.1 hnil
        rw [hplanned']
        have hb := hacc.1
        have hl := hacc.2.1
        constructor
        · have : (splitOnNl (joinSections (planSections (readLoop stopOnError 0 files).1
              (execute B stopOnError files).chosenPlan))).length =
              (execute B stopOnError files).chosenPlan.usedLines := by
            have := congrArg TextMetrics.lines hmeas
            simpa [measureText] using this
          omega
        · have : utf8Len (joinSections (planSections (readLoop stopOnError 0 files).1
              (execute B stopOnError files).chosenPlan)) =
              (execute B stopOnError files).chosenPlan.usedBytes := by
            have := congrArg TextMetrics.bytes hmeas
            simpa [measureText] using this
          omega
    constructor
    · rw [hcomb, hnoop]
      rfl
    · rw [houtput, hnoop]

/-- With `stopOnError` set, the read loop ignores everything after the
first failure. -/
theorem readLoop_stopOnError :
    ∀ (pre : List FileRequest) (i : Nat) (f : FileRequest) (post : List FileRequest),
      (∀ g ∈ pre, ∃ content, g.outcome = ReadOutcome.success content) →
      (∃ msg, f.outcome = ReadOutcome.failure msg) →
      readLoop true i (pre ++ f :: post) = readLoop true i (pre ++ [f]) ∧
      (readLoop true i (pre ++ f :: post)).2.length = pre.length + 1 := by
  intro pre
  induction pre with
  | nil =>
    intro i f post hpre hf
    obtain ⟨msg, hmsg⟩ := hf
    constructor
    · simp [readLoop, hmsg]
    · simp [readLoop, hmsg]
  | cons g pre' ih =>
    intro i f post hpre hf
    obtain ⟨content, hg⟩ := hpre g (by simp)
    obtain ⟨heq, hlen⟩ := ih (i + 1) f post (fun x hx => hpre x (by simp [hx])) hf
    constructor
    · simp only [List.cons_append, readLoop, hg]
      simp only [List.append_eq]
      rw [heq]
    · simp only [List.cons_append, readLoop, hg]
      simp only [List.append_eq, List.length_cons, hlen]

/-- A plan's section count is its full-inclusion count plus one for the
partial section, if any: at most one partial section per plan. -/
theorem buildPlan_sectionCount (B : Budget) (strategy : PackingStrategy) (order : List Nat)
    (cands : List FileCandidate) :
    (buildPlan B strategy order cands).sectionCount =
      (buildPlan B strategy order cands).fullCount +
        (if (buildPlan B strategy order cands).partialSection.isSome then 1 else 0) := by
  obtain ⟨_, hpartEq, _, _, hsecEq, hfcEq, _, _⟩ := buildPlan_proj B strategy order cands
  have hfold := (fullPass_spec B strategy cands order ⟨0, 0, 0⟩).2
  have hsc : (fullPass B strategy cands ⟨0, 0, 0⟩ order).1.sectionCount =
      (fullPass B strategy cands ⟨0, 0, 0⟩ order).2.1.length := by
    rw [hfold, foldl_addSection_zero]
    simp
  cases hpart : partialScan B (fullPass B strategy cands ⟨0, 0, 0⟩ order).2.1
      (fullPass B strategy cands ⟨0, 0, 0⟩ order).1 cands.enum with
  | none =>
    have h1 : (buildPlan B strategy order cands).sectionCount =
        (fullPass B strategy cands ⟨0, 0, 0⟩ order).1.sectionCount := by
      rw [hsecEq, hpart]
    rw [h1, hsc, hfcEq, hpartEq, hpart]
    simp
  | some ps =>
    have h1 : (buildPlan B strategy order cands).sectionCount =
        (fullPass B strategy cands ⟨0, 0, 0⟩ order).1.sectionCount + 1 := by
      rw [hsecEq, hpart]
      rfl
    rw [h1, hsc, hfcEq, hpartEq, hpart]
    simp

/-- When a plan carries a partial section, its metrics are the measure of
its text and fit the byte/line budget remaining after the full pass and
the separator. -/
theorem buildPlan_partial_fits (B : Budget) (strategy : PackingStrategy) (order : List Nat)
    (cands : List FileCandidate) (ps : PackedSection)
    (h : (buildPlan B strategy order cands).partialSection = some ps) :
    ps.metrics = measureText ps.text ∧
    ps.metrics.lines ≤ B.maxLines - (fullPass B strategy cands ⟨0, 0, 0⟩ order).1.usedLines
      - sepLines (fullPass B strategy cands ⟨0, 0, 0⟩ order).1 ∧
    ps.metrics.bytes ≤ B.maxBytes - (fullPass B strategy cands ⟨0, 0, 0⟩ order).1.usedBytes
      - sepBytes (fullPass B strategy cands ⟨0, 0, 0⟩ order).1 := by
  obtain ⟨_, hpartEq, _, _, _, _, _, _⟩ := buildPlan_proj B strategy order cands
  rw [h] at hpartEq
  obtain ⟨hmeq, _, _, hll, hbb, _, _⟩ :=
    partialScan_spec B (fullPass B strategy cands ⟨0, 0, 0⟩ order).2.1
      (fullPass B strategy cands ⟨0, 0, 0⟩ order).1 cands.enum ps hpartEq.symm
  refine ⟨hmeq, ?_, ?_⟩
  · rw [hmeq]; exact hll
  · rw [hmeq]; exact hbb

/-- C1: for every path, every 1-based position and every content string,
the delimiter returned by `pickDelimiter` never appears as an exact line
within the content — neither in the carriage-return-stripped line set the
source consults nor among the raw newline-separated lines. -/
theorem claim_C1_delimiter_free (path : JStr) (index : Nat) (content : JStr) :
    pickDelimiter path index content ∉ buildLineSet content ∧
    ∀ l ∈ splitOnNl content, l ≠ pickDelimiter path index content :=
  ⟨pickDelimiter_not_mem_lineSet path index content,
   pickDelimiter_not_content_line path index content⟩

theorem claim_C1_witness :
    pickDelimiter (js "/tmp/a.txt") 1 (js "hello\nworld") ∉
      buildLineSet (js "hello\nworld") ∧
    js "hello" ≠ pickDelimiter (js "/tmp/a.txt") 1 (js "hello\nworld") :=
  ⟨(claim_C1_delimiter_free (js "/tmp/a.txt") 1 (js "hello\nworld")).1,
   (claim_C1_delimiter_free (js "/tmp/a.txt") 1 (js "hello\nworld")).2
     (js "hello") (by decide)⟩

/-- C2 as stated is false: when the path itself contains a newline, the
framed block's first line is no longer the whole header line, and the
positional split does not recover the body. -/
theorem claim_C2_counterexample :
    parseBlock (formatContentBlock (js "a\nb") (js "x") 1) ≠ some (js "x") := by
  decide

/-- C2 (amended): for every *newline-free* path, every body and every
position, splitting the block produced by `formatContentBlock` at its
header line, opening marker line and closing delimiter line recovers the
original body byte-for-byte; no escaping is applied to the body. -/
theorem claim_C2_roundtrip (path : JStr) (body : JStr) (index : Nat)
    (hpath : '\n' ∉ path) :
    parseBlock (formatContentBlock path body index) = some body :=
  parseBlock_formatContentBlock body index hpath

theorem claim_C2_witness :
    '\n' ∉ js "/tmp/file.txt" ∧
    parseBlock (formatContentBlock (js "/tmp/file.txt") (js "line 1\nline 2") 3) =
      some (js "line 1\nline 2") :=
  ⟨by decide, claim_C2_roundtrip (js "/tmp/file.txt") (js "line 1\nline 2") 3 (by decide)⟩

/-- C9: `pickDelimiter` terminates on every input — in particular, for the
final unbounded suffix-probing loop over `<fallback>_1`, `<fallback>_2`, …
there always exists a suffix whose candidate is not in the finite set of
content lines, and the loop (run with fuel that provably reaches the first
free suffix) returns a token outside that set. -/
theorem claim_C9_probe_terminates (path : JStr) (index : Nat) (content : JStr) :
    (∃ k, 1 ≤ k ∧
      (delimiterWord index ++ '_' :: natDecimal index ++ '_' :: createPathHash path
          ++ '_' :: strToUpper (natToBase 36 content.length)) ++ '_' :: natDecimal k
        ∉ buildLineSet content) ∧
    probeUnbounded (buildLineSet content)
      (delimiterWord index ++ '_' :: natDecimal index ++ '_' :: createPathHash path
        ++ '_' :: strToUpper (natToBase 36 content.length))
      ((buildLineSet content).length + 1) 1 ∉ buildLineSet content := by
  obtain ⟨i, hi, hfree⟩ := exists_free_suffix (buildLineSet content)
    (delimiterWord index ++ '_' :: natDecimal index ++ '_' :: createPathHash path
      ++ '_' :: strToUpper (natToBase 36 content.length)) 1
  exact ⟨⟨1 + i, by omega, hfree⟩,
    probeUnbounded_not_mem _ _ _ 1 ⟨i, hi, hfree⟩⟩

/-- C10: `createPathHash` is exactly the 32-bit rolling hash with seed 5381
and step `hash = hash*33 + charCode` modulo `2^32`, rendered in uppercase
hexadecimal, zero-padded on the left to 6 characters and truncated to its
first 6 characters. -/
theorem claim_C10_path_hash (path : JStr) : createPathHash path = specPathHash path :=
  createPathHash_eq_spec path

/-- C4: in a plan built with the request-order strategy, once some
candidate in the (duplicate-free) order is not fully included, no candidate
after it in the order is fully included, regardless of its size. -/
theorem claim_C4_strict_stop (B : Budget) (cands : List FileCandidate)
    (pre : List Nat) (i : Nat) (post : List Nat)
    (hnd : (pre ++ i :: post).Nodup)
    (hi : i ∉ (buildPlan B .requestOrder (pre ++ i :: post) cands).fullIncluded) :
    ∀ j ∈ post, j ∉ (buildPlan B .requestOrder (pre ++ i :: post) cands).fullIncluded := by
  have hfullEq := (buildPlan_proj B .requestOrder (pre ++ i :: post) cands).1
  rw [hfullEq] at hi ⊢
  exact fullPass_requestOrder_stop B cands pre ⟨0, 0, 0⟩ i post hnd hi

theorem claim_C4_witness :
    (([0] ++ 1 :: [2]) : List Nat).Nodup ∧
    1 ∉ (buildPlan ⟨10, 5⟩ .requestOrder ([0] ++ 1 :: [2])
      [⟨0, [], true, ['a'], ⟨1, 1⟩, none⟩, ⟨1, [], true, ['b'], ⟨100, 1⟩, none⟩,
       ⟨2, [], true, ['c'], ⟨1, 1⟩, none⟩]).fullIncluded ∧
    2 ∉ (buildPlan ⟨10, 5⟩ .requestOrder ([0] ++ 1 :: [2])
      [⟨0, [], true, ['a'], ⟨1, 1⟩, none⟩, ⟨1, [], true, ['b'], ⟨100, 1⟩, none⟩,
       ⟨2, [], true, ['c'], ⟨1, 1⟩, none⟩]).fullIncluded :=
  ⟨by decide, by decide,
   claim_C4_strict_stop ⟨10, 5⟩
     [⟨0, [], true, ['a'], ⟨1, 1⟩, none⟩, ⟨1, [], true, ['b'], ⟨100, 1⟩, none⟩,
      ⟨2, [], true, ['c'], ⟨1, 1⟩, none⟩]
     [0] 1 [2] (by decide) (by decide) 2 (by decide)⟩

/-- C3: the orchestrator switches from the request-order plan to the
smallest-first plan exactly when the smallest-first plan's count of fully
included successful blocks strictly exceeds the request-order plan's; on
ties or regressions it keeps the request-order plan. -/
theorem claim_C3_switch_iff (B : Budget) (stopOnError : Bool) (files : List FileRequest) :
    ((execute B stopOnError files).switchedForCoverage = true ↔
      (execute B stopOnError files).requestPlan.fullSuccessCount <
        (execute B stopOnError files).smallestPlan.fullSuccessCount) ∧
    (execute B stopOnError files).chosenPlan =
      (if (execute B stopOnError files).requestPlan.fullSuccessCount <
          (execute B stopOnError files).smallestPlan.fullSuccessCount
        then (execute B stopOnError files).smallestPlan
        else (execute B stopOnError files).requestPlan) ∧
    ((execute B stopOnError files).chosenPlan.strategy = PackingStrategy.smallestFirst ↔
      (execute B stopOnError files).requestPlan.fullSuccessCount <
        (execute B stopOnError files).smallestPlan.fullSuccessCount) ∧
    (execute B stopOnError files).requestPlan =
      buildPlan B .requestOrder
        (List.range (execute B stopOnError files).candidates.length)
        (execute B stopOnError files).candidates ∧
    (execute B stopOnError files).smallestPlan =
      buildPlan B .smallestFirst
        (smallestFirstOrder (execute B stopOnError files).candidates)
        (execute B stopOnError files).candidates := by
  obtain ⟨hcand, _, _, hreq, hsmall, hswitch, hchosen, _, _, _, _⟩ :=
    execute_proj B stopOnError files
  have hiff : (execute B stopOnError files).switchedForCoverage = true ↔
      (execute B stopOnError files).requestPlan.fullSuccessCount <
        (execute B stopOnError files).smallestPlan.fullSuccessCount := by
    rw [hswitch]
    simp
  refine ⟨hiff, ?_, ?_, ?_, ?_⟩
  · rw [hchosen]
    by_cases h : (execute B stopOnError files).requestPlan.fullSuccessCount <
        (execute B stopOnError files).smallestPlan.fullSuccessCount
    · rw [if_pos (hiff.mpr h), if_pos h]
    · rw [if_neg (fun ht => h (hiff.mp ht)), if_neg h]
  · rw [hchosen]
    by_cases h : (execute B stopOnError files).requestPlan.fullSuccessCount <
        (execute B stopOnError files).smallestPlan.fullSuccessCount
    · rw [if_pos (hiff.mpr h)]
      constructor
      · intro _; exact h
      · intro _
        rw [hsmall]
        exact (buildPlan_proj B .smallestFirst _ _).2.2.2.2.2.2.2
    · rw [if_neg (fun ht => h (hiff.mp ht))]
      constructor
      · intro hs
        exfalso
        rw [hreq] at hs
        rw [(buildPlan_proj B .requestOrder _ _).2.2.2.2.2.2.2] at hs
        exact PackingStrategy.noConfusion hs
      · intro hlt; exact absurd hlt h
  · rw [hreq, hcand]
  · rw [hsmall, hcand]

theorem claim_C3_witness :
    (execute ⟨50, 20⟩ false
      [⟨js "/a", .success [.text (js "aaaaaaaaaaaaaaaaaaaaaaaaaaaaaaaaaaaaaaaa")]⟩,
       ⟨js "/b", .success [.text (js "b")]⟩]).switchedForCoverage = true ∧
    (execute ⟨50, 20⟩ false
      [⟨js "/a", .success [.text (js "aaaaaaaaaaaaaaaaaaaaaaaaaaaaaaaaaaaaaaaa")]⟩,
       ⟨js "/b", .success [.text (js "b")]⟩]).requestPlan.fullSuccessCount <
      (execute ⟨50, 20⟩ false
        [⟨js "/a", .success [.text (js "aaaaaaaaaaaaaaaaaaaaaaaaaaaaaaaaaaaaaaaa")]⟩,
         ⟨js "/b", .success [.text (js "b")]⟩]).smallestPlan.fullSuccessCount :=
  ⟨by decide,
   (claim_C3_switch_iff ⟨50, 20⟩ false
     [⟨js "/a", .success [.text (js "aaaaaaaaaaaaaaaaaaaaaaaaaaaaaaaaaaaaaaaa")]⟩,
      ⟨js "/b", .success [.text (js "b")]⟩]).1.mp (by decide)⟩

/-- C5: every plan contains at most one partial section (the section count
is the full count plus at most one), and a partial section's rendered text
never exceeds the remaining byte/line budget at the point it is inserted —
both as `buildPartialSection`'s guarantee and as recorded in the plan
relative to the post-full-pass state. -/
theorem claim_C5_partial_sections (B : Budget) :
    (∀ (strategy : PackingStrategy) (order : List Nat) (cands : List FileCandidate),
      (buildPlan B strategy order cands).sectionCount =
        (buildPlan B strategy order cands).fullCount +
          (if (buildPlan B strategy order cands).partialSection.isSome then 1 else 0)) ∧
    (∀ (c : FileCandidate) (remainingLines remainingBytes : Nat) (t : JStr),
      buildPartialSection c remainingLines remainingBytes = some t →
      (measureText t).lines ≤ remainingLines ∧ (measureText t).bytes ≤ remainingBytes) ∧
    (∀ (strategy : PackingStrategy) (order : List Nat) (cands : List FileCandidate)
        (ps : PackedSection),
      (buildPlan B strategy order cands).partialSection = some ps →
      ps.metrics = measureText ps.text ∧
      ps.metrics.lines ≤ B.maxLines
        - (fullPass B strategy cands ⟨0, 0, 0⟩ order).1.usedLines
        - sepLines (fullPass B strategy cands ⟨0, 0, 0⟩ order).1 ∧
      ps.metrics.bytes ≤ B.maxBytes
        - (fullPass B strategy cands ⟨0, 0, 0⟩ order).1.usedBytes
        - sepBytes (fullPass B strategy cands ⟨0, 0, 0⟩ order).1) :=
  ⟨fun s o c => buildPlan_sectionCount B s o c,
   fun c rl rb t h => buildPartialSection_le c rl rb t h,
   fun s o c ps h => buildPlan_partial_fits B s o c ps h⟩

theorem claim_C5_witness :
    ((buildPlan ⟨200, 10⟩ .requestOrder [0] [c5cand]).sectionCount =
      (buildPlan ⟨200, 10⟩ .requestOrder [0] [c5cand]).fullCount +
        (if (buildPlan ⟨200, 10⟩ .requestOrder [0] [c5cand]).partialSection.isSome
          then 1 else 0)) ∧
    buildPartialSection c5cand 10 200 = some ((buildPartialSection c5cand 10 200).getD []) ∧
    (measureText ((buildPartialSection c5cand 10 200).getD [])).lines ≤ 10 ∧
    (measureText ((buildPartialSection c5cand 10 200).getD [])).bytes ≤ 200 ∧
    (buildPlan ⟨200, 10⟩ .requestOrder [0] [c5cand]).partialSection =
      some (((buildPlan ⟨200, 10⟩ .requestOrder [0] [c5cand]).partialSection).getD
        ⟨0, [], ⟨0, 0⟩⟩) ∧
    (((buildPlan ⟨200, 10⟩ .requestOrder [0] [c5cand]).partialSection).getD
      ⟨0, [], ⟨0, 0⟩⟩).metrics.lines ≤ 10
      - (fullPass ⟨200, 10⟩ .requestOrder [c5cand] ⟨0, 0, 0⟩ [0]).1.usedLines
      - sepLines (fullPass ⟨200, 10⟩ .requestOrder [c5cand] ⟨0, 0, 0⟩ [0]).1 :=
  ⟨(claim_C5_partial_sections ⟨200, 10⟩).1 .requestOrder [0] [c5cand],
   by decide,
   ((claim_C5_partial_sections ⟨200, 10⟩).2.1 c5cand 10 200
     ((buildPartialSection c5cand 10 200).getD []) (by decide)).1,
   ((claim_C5_partial_sections ⟨200, 10⟩).2.1 c5cand 10 200
     ((buildPartialSection c5cand 10 200).getD []) (by decide)).2,
   by decide,
   ((claim_C5_partial_sections ⟨200, 10⟩).2.2 .requestOrder [0] [c5cand]
     (((buildPlan ⟨200, 10⟩ .requestOrder [0] [c5cand]).partialSection).getD
       ⟨0, [], ⟨0, 0⟩⟩) (by decide)).2.1⟩

/-- C6: for every request and whichever strategy wins, the rendered section
list places included sections in original request-index order: if files
`i < j` both contribute a section, file `i`'s text precedes file `j`'s, and
the assembled output is exactly these sections joined by blank lines. -/
theorem claim_C6_render_order (B : Budget) (stopOnError : Bool) (files : List FileRequest)
    (i j : Nat) (ti tj : JStr) (hij : i < j)
    (hj : j < (execute B stopOnError files).candidates.length)
    (hti : sectionTextAt (execute B stopOnError files).chosenPlan i
      ((execute B stopOnError files).candidates.getD i defaultCandidate) = some ti)
    (htj : sectionTextAt (execute B stopOnError files).chosenPlan j
      ((execute B stopOnError files).candidates.getD j defaultCandidate) = some tj) :
    List.Sublist [ti, tj]
      (planSections (execute B stopOnError files).candidates
        (execute B stopOnError files).chosenPlan) ∧
    (execute B stopOnError files).plannedOutputText =
      joinSections (planSections (execute B stopOnError files).candidates
        (execute B stopOnError files).chosenPlan) := by
  obtain ⟨hcand, _, _, _, _, _, _, hplanned, _, _, _⟩ := execute_proj B stopOnError files
  refine ⟨planSections_pair_sublist _ _ i j hij hj ti tj hti htj, ?_⟩
  rw [hplanned, ← hcand]

theorem claim_C6_witness :
    (0 : Nat) < 1 ∧
    1 < (execute ⟨1000, 100⟩ false
      [⟨js "/a", .success [.text (js "Aa")]⟩,
       ⟨js "/b", .success [.text (js "Bb")]⟩]).candidates.length ∧
    List.Sublist
      [((execute ⟨1000, 100⟩ false
          [⟨js "/a", .success [.text (js "Aa")]⟩,
           ⟨js "/b", .success [.text (js "Bb")]⟩]).candidates.getD 0 defaultCandidate).fullText,
       ((execute ⟨1000, 100⟩ false
          [⟨js "/a", .success [.text (js "Aa")]⟩,
           ⟨js "/b", .success [.text (js "Bb")]⟩]).candidates.getD 1 defaultCandidate).fullText]
      (planSections (execute ⟨1000, 100⟩ false
          [⟨js "/a", .success [.text (js "Aa")]⟩,
           ⟨js "/b", .success [.text (js "Bb")]⟩]).candidates
        (execute ⟨1000, 100⟩ false
          [⟨js "/a", .success [.text (js "Aa")]⟩,
           ⟨js "/b", .success [.text (js "Bb")]⟩]).chosenPlan) :=
  ⟨by decide, by decide,
   (claim_C6_render_order ⟨1000, 100⟩ false
     [⟨js "/a", .success [.text (js "Aa")]⟩, ⟨js "/b", .success [.text (js "Bb")]⟩]
     0 1 _ _ (by decide) (by decide) (by decide) (by decide)).1⟩

/-- C7 as stated is false: when no section fits (possible, since the
ceilings are external configuration), the plan's `usedLines` is 0 while the
assembled text is the empty string, whose line metric is 1. -/
theorem claim_C7_counterexample :
    (measureText (execute ⟨0, 10⟩ false
        [⟨js "/a", ReadOutcome.success [ReadFragment.text (js "hi")]⟩]).plannedOutputText).lines ≠
      (execute ⟨0, 10⟩ false
        [⟨js "/a", ReadOutcome.success [ReadFragment.text (js "hi")]⟩]).chosenPlan.usedLines := by
  decide

/-- C7 (amended): the planner's accounting is exact whenever at least one
section is included — the assembled text's byte and line metrics equal the
plan's `usedBytes`/`usedLines`, which never exceed the ceilings; when no
section is included the assembled text is empty and the used totals are 0
(the empty text's line metric being 1); and provided the line ceiling is at
least 1, the final safety truncation pass is a no-op and
`combinedTruncation` is absent. -/
theorem claim_C7_exact_accounting (B : Budget) (stopOnError : Bool)
    (files : List FileRequest) (hml : 1 ≤ B.maxLines) :
    (execute B stopOnError files).chosenPlan.usedBytes ≤ B.maxBytes ∧
    (execute B stopOnError files).chosenPlan.usedLines ≤ B.maxLines ∧
    (planSections (execute B stopOnError files).candidates
        (execute B stopOnError files).chosenPlan ≠ [] →
      measureText (execute B stopOnError files).plannedOutputText =
        ⟨(execute B stopOnError files).chosenPlan.usedBytes,
         (execute B stopOnError files).chosenPlan.usedLines⟩) ∧
    (planSections (execute B stopOnError files).candidates
        (execute B stopOnError files).chosenPlan = [] →
      (execute B stopOnError files).chosenPlan.usedBytes = 0 ∧
      (execute B stopOnError files).chosenPlan.usedLines = 0 ∧
      (execute B stopOnError files).plannedOutputText = []) ∧
    (execute B stopOnError files).combinedTruncation = none ∧
    (execute B stopOnError files).outputText =
      (execute B stopOnError files).plannedOutputText := by
  obtain ⟨h1, h2, h3, h4, h5⟩ := execute_accounting B stopOnError files
  exact ⟨h1, h2, h3, h4, (h5 hml).1, (h5 hml).2⟩

theorem claim_C7_witness :
    (1 : Nat) ≤ 100 ∧
    planSections (execute ⟨1000, 100⟩ false
        [⟨js "/w", ReadOutcome.success [ReadFragment.text (js "ok")]⟩]).candidates
      (execute ⟨1000, 100⟩ false
        [⟨js "/w", ReadOutcome.success [ReadFragment.text (js "ok")]⟩]).chosenPlan ≠ [] ∧
    measureText (execute ⟨1000, 100⟩ false
        [⟨js "/w", ReadOutcome.success [ReadFragment.text (js "ok")]⟩]).plannedOutputText =
      ⟨(execute ⟨1000, 100⟩ false
          [⟨js "/w", ReadOutcome.success [ReadFragment.text (js "ok")]⟩]).chosenPlan.usedBytes,
       (execute ⟨1000, 100⟩ false
          [⟨js "/w", ReadOutcome.success [ReadFragment.text (js "ok")]⟩]).chosenPlan.usedLines⟩ ∧
    (execute ⟨1000, 100⟩ false
      [⟨js "/w", ReadOutcome.success [ReadFragment.text (js "ok")]⟩]).combinedTruncation = none :=
  ⟨by decide, by decide,
   (claim_C7_exact_accounting ⟨1000, 100⟩ false
     [⟨js "/w", ReadOutcome.success [ReadFragment.text (js "ok")]⟩] (by decide)).2.2.1
     (by decide),
   (claim_C7_exact_accounting ⟨1000, 100⟩ false
     [⟨js "/w", ReadOutcome.success [ReadFragment.text (js "ok")]⟩] (by decide)).2.2.2.2.1⟩

/-- C8: with `stopOnError` set, when the file at 0-based position
`pre.length` is the first whose read fails, processing halts right after
recording that failure — the whole result is as if the later files were
never requested — and the reported processed count is the failing file's
1-based index. -/
theorem claim_C8_stop_on_error (B : Budget) (pre : List FileRequest) (f : FileRequest)
    (post : List FileRequest)
    (hpre : ∀ g ∈ pre, ∃ content, g.outcome = ReadOutcome.success content)
    (hf : ∃ msg, f.outcome = ReadOutcome.failure msg) :
    (execute B true (pre ++ f :: post)).processedCount = pre.length + 1 ∧
    execute B true (pre ++ f :: post) = execute B true (pre ++ [f]) := by
  obtain ⟨heq, hlen⟩ := readLoop_stopOnError pre 0 f post hpre hf
  constructor
  · have hproc : (execute B true (pre ++ f :: post)).processedCount =
        (readLoop true 0 (pre ++ f :: post)).2.length :=
      (execute_proj B true (pre ++ f :: post)).2.2.1
    rw [hproc, hlen]
  · unfold execute
    rw [heq]

theorem claim_C8_witness :
    (execute ⟨1000, 100⟩ true
      [⟨js "/good", ReadOutcome.success [ReadFragment.text (js "ok")]⟩,
       ⟨js "/bad", ReadOutcome.failure (js "boom")⟩,
       ⟨js "/later", ReadOutcome.success [ReadFragment.text (js "x")]⟩]).processedCount = 2 ∧
    execute ⟨1000, 100⟩ true
      [⟨js "/good", ReadOutcome.success [ReadFragment.text (js "ok")]⟩,
       ⟨js "/bad", ReadOutcome.failure (js "boom")⟩,
       ⟨js "/later", ReadOutcome.success [ReadFragment.text (js "x")]⟩] =
    execute ⟨1000, 100⟩ true
      [⟨js "/good", ReadOutcome.success [ReadFragment.text (js "ok")]⟩,
       ⟨js "/bad", ReadOutcome.failure (js "boom")⟩] := by
  have h := claim_C8_stop_on_error ⟨1000, 100⟩
    [⟨js "/good", ReadOutcome.success [ReadFragment.text (js "ok")]⟩]
    ⟨js "/bad", ReadOutcome.failure (js "boom")⟩
    [⟨js "/later", ReadOutcome.success [ReadFragment.text (js "x")]⟩]
    (by
      intro g hg
      simp only [List.mem_singleton] at hg
      subst hg
      exact ⟨[ReadFragment.text (js "ok")], rfl⟩)
    ⟨js "boom", rfl⟩
  simpa using h

end ReadMany
